import Mathlib

/-!
# Kilo text viewer (`kilo/kilo.c`): embedding and verified properties

The C program is embedded as pure functions over an explicit copy of the global
record `E`.  C `int`s are modelled by `Int` (all values that occur are bounded
by the terminal size and the number of loaded lines).  An access `E.rows[i]`
outside `0 .. numRows-1` is undefined behaviour in C; here it is the explicit
outcome `Res.oob i`.  The functions of the cursor engine also return the list of
the line indices they accessed.  The renderer returns the bytes it builds for
the one `write` call, or the fault it runs into (`Draw`).
-/

namespace Kilo

/-! ## Key codes (`enum editorKey`, `CTRL_KEY`) -/

def ARROW_LEFT : Int := 1000
def ARROW_RIGHT : Int := 1001
def ARROW_UP : Int := 1002
def ARROW_DOWN : Int := 1003
def HOME_KEY : Int := 1004
def END_KEY : Int := 1005
def PAGE_DOWN : Int := 1006
def PAGE_UP : Int := 1007
def DEL_KEY : Int := 1008

/-- The macro `CTRL_KEY(k)`, that is `k & 0x1F`. -/
def CTRL_KEY (k : Nat) : Int := Int.ofNat (k &&& 0x1F)

/-- The escape byte, `'\x1b'`. -/
def ESC : Int := 27

/-! ## Data model (`erow`, `struct editorConfigs`) -/

/-- One loaded line: its bytes and the recorded length `len`. -/
structure erow where
  line : List Nat
  len : Int
deriving DecidableEq

/-- The global record `E` (the saved terminal settings are left out). -/
structure editorConfigs where
  cx : Int
  cy : Int
  screenRows : Int
  screenCols : Int
  numRows : Int
  rows : List erow
  rowOff : Int
  colOff : Int
deriving DecidableEq

/-- How a call ends. -/
inductive Res (α : Type) where
  /-- the call returns -/
  | ok (a : α)
  /-- the call accesses `E.rows[index]` with `index` outside `0 .. numRows-1` -/
  | oob (index : Int)
  /-- the call ends the process through `die(msg)` -/
  | died (msg : String)
  /-- the call ends the process through the quit key -/
  | quit
  /-- the call never returns -/
  | blocked
deriving DecidableEq

/-- A call's outcome together with the line indices it accessed, in order. -/
structure Run (α : Type) where
  reads : List Int
  res : Res α
deriving DecidableEq

/-- The access `E.rows[i]->len`; `none` when `i` is not an index of a loaded line. -/
def rowLen (E : editorConfigs) (i : Int) : Option Int :=
  if 0 ≤ i ∧ i < E.numRows then (E.rows.get? i.toNat).map erow.len else none

/-- The column update shared by the `ARROW_UP` and `ARROW_DOWN` branches:
`if (nextLineLen < E.cx) E.cx = nextLineLen;
 else E.cx = nextLineLen < E.colOff ? nextLineLen : E.colOff;` -/
def setColumn (E : editorConfigs) (nextLineLen : Int) : editorConfigs :=
  if nextLineLen < E.cx then { E with cx := nextLineLen }
  else { E with cx := if nextLineLen < E.colOff then nextLineLen else E.colOff }

/-- The statements `int nextLineLen = E.rows[E.rowOff + E.cy]->len;` followed by
the column update. -/
def readLineAndSetColumn (E : editorConfigs) : Run editorConfigs :=
  match rowLen E (E.rowOff + E.cy) with
  | some nextLineLen => ⟨[E.rowOff + E.cy], Res.ok (setColumn E nextLineLen)⟩
  | none => ⟨[E.rowOff + E.cy], Res.oob (E.rowOff + E.cy)⟩

/-- The function `editMoveCursor(key)`. -/
def editMoveCursor (key : Int) (E : editorConfigs) : Run editorConfigs :=
  if key = ARROW_UP then
    let E1 : editorConfigs :=
      if E.cy > 0 then { E with cy := E.cy - 1 }
      else if E.rowOff > 0 then { E with rowOff := E.rowOff - 1 }
      else E
    readLineAndSetColumn E1
  else if key = ARROW_LEFT then
    if E.cx > 0 then ⟨[], Res.ok { E with cx := E.cx - 1, colOff := E.cx - 1 }⟩
    else ⟨[], Res.ok E⟩
  else if key = ARROW_DOWN then
    if E.rowOff + E.cy ≥ E.numRows then ⟨[], Res.ok E⟩
    else
      let E1 : editorConfigs :=
        if E.cy < E.screenRows - 1 then { E with cy := E.cy + 1 }
        else if E.rowOff < E.numRows then { E with rowOff := E.rowOff + 1 }
        else E
      readLineAndSetColumn E1
  else if key = ARROW_RIGHT then
    if E.cx < E.screenCols - 1 then
      match rowLen E (E.rowOff + E.cy) with
      | some len =>
        if E.cx < len then
          ⟨[E.rowOff + E.cy], Res.ok { E with cx := E.cx + 1, colOff := E.cx + 1 }⟩
        else ⟨[E.rowOff + E.cy], Res.ok E⟩
      | none => ⟨[E.rowOff + E.cy], Res.oob (E.rowOff + E.cy)⟩
    else ⟨[], Res.ok E⟩
  else if key = HOME_KEY then ⟨[], Res.ok { E with cx := 0 }⟩
  else if key = END_KEY then ⟨[], Res.ok { E with cx := E.screenCols - 1 }⟩
  else ⟨[], Res.died "editMoveCursor"⟩

/-- The loop `while (times--) editMoveCursor(key);` of the `PAGE_UP`/`PAGE_DOWN`
branch, for a non-negative `times`. -/
def pageLoop : Nat → Int → editorConfigs → Run editorConfigs
  | 0, _, E => ⟨[], Res.ok E⟩
  | times + 1, key, E =>
    match editMoveCursor key E with
    | ⟨rs, Res.ok E1⟩ => ⟨rs ++ (pageLoop times key E1).reads, (pageLoop times key E1).res⟩
    | r => r

/-- The `switch (c)` of `editorProcessKeyPress`, for the key `c` that
`editorReadKey` returned.  A negative `screenRows` makes `while (times--)` count
down without reaching zero. -/
def processKey (c : Int) (E : editorConfigs) : Run editorConfigs :=
  if c = CTRL_KEY 113 then ⟨[], Res.quit⟩
  else if c = ARROW_UP ∨ c = ARROW_DOWN ∨ c = ARROW_LEFT ∨ c = ARROW_RIGHT ∨
      c = HOME_KEY ∨ c = END_KEY then editMoveCursor c E
  else if c = PAGE_UP ∨ c = PAGE_DOWN then
    if E.screenRows < 0 then ⟨[], Res.blocked⟩
    else pageLoop E.screenRows.toNat (if c = PAGE_UP then ARROW_UP else ARROW_DOWN) E
  else ⟨[], Res.ok E⟩

/-! ## Terminal input (`read`, `editorReadKey`) -/

def STDIN_FILENO : Nat := 0
def STDOUT_FILENO : Nat := 1

/-- What one call `read(fd, &c, 1)` gives. -/
inductive ReadResult where
  /-- the call returns 1 and stores the byte `b` -/
  | byte (b : Nat)
  /-- the call returns 0: the time-out of raw mode elapsed, or end of file -/
  | empty
  /-- the call returns -1 with `errno == EAGAIN` -/
  | again
  /-- the call returns -1 with another `errno` -/
  | error
deriving DecidableEq

/-- The results that the coming `read` calls will give.  `stdin` belongs to
descriptor 0.  Descriptor 1 is either open on the same terminal as descriptor 0
(`sameTerminal`, the interactive case), and then shares `stdin`, or it is another
file whose reads give `stdout`.  A list that is used up gives `ReadResult.empty`
from then on. -/
structure World where
  stdin : List ReadResult
  stdout : List ReadResult
  sameTerminal : Bool
deriving DecidableEq

/-- The call `read(fd, &c, 1)`. -/
def read (fd : Nat) (w : World) : ReadResult × World :=
  if fd = STDIN_FILENO ∨ w.sameTerminal = true then
    match w.stdin with
    | [] => (ReadResult.empty, w)
    | r :: rest => (r, { w with stdin := rest })
  else
    match w.stdout with
    | [] => (ReadResult.empty, w)
    | r :: rest => (r, { w with stdout := rest })

/-- The value of a `char` holding the byte `b`, as an `int` (`char` is signed). -/
def charVal (b : Nat) : Int :=
  if b % 256 < 128 then Int.ofNat (b % 256) else Int.ofNat (b % 256) - 256

/-- The loop `while ((nread = read(STDIN_FILENO, &c, 1)) != 1) { if (nread == -1
&& errno != EAGAIN) die("read"); }` over the results of descriptor 0: the byte
read and the results left.  With no byte to come the loop does not end. -/
def readLoop : List ReadResult → Res (Nat × List ReadResult)
  | [] => Res.blocked
  | ReadResult.byte b :: rest => Res.ok (b, rest)
  | ReadResult.empty :: rest => readLoop rest
  | ReadResult.again :: rest => readLoop rest
  | ReadResult.error :: _ => Res.died "read"

/-- The function `editorReadKey()`: the key and the input left. -/
def editorReadKey (w : World) : Res (Int × World) :=
  match readLoop w.stdin with
  | Res.ok (c, rest) =>
    let w0 : World := { w with stdin := rest }
    if charVal c = ESC then
      match read STDOUT_FILENO w0 with
      | (ReadResult.byte seq0, w1) =>
        match read STDOUT_FILENO w1 with
        | (ReadResult.byte seq1, w2) =>
          if charVal seq0 = 91 then
            if charVal seq1 ≥ 48 ∧ charVal seq1 ≤ 57 then
              match read STDIN_FILENO w2 with
              | (ReadResult.byte seq2, w3) =>
                if charVal seq2 = 126 then
                  if charVal seq1 = 49 then Res.ok (HOME_KEY, w3)
                  else if charVal seq1 = 51 then Res.ok (DEL_KEY, w3)
                  else if charVal seq1 = 52 then Res.ok (END_KEY, w3)
                  else if charVal seq1 = 53 then Res.ok (PAGE_UP, w3)
                  else if charVal seq1 = 54 then Res.ok (PAGE_DOWN, w3)
                  else if charVal seq1 = 55 then Res.ok (HOME_KEY, w3)
                  else if charVal seq1 = 56 then Res.ok (END_KEY, w3)
                  else Res.ok (ESC, w3)
                else Res.ok (ESC, w3)
              | (_, w3) => Res.ok (ESC, w3)
            else
              if charVal seq1 = 65 then Res.ok (ARROW_UP, w2)
              else if charVal seq1 = 66 then Res.ok (ARROW_DOWN, w2)
              else if charVal seq1 = 67 then Res.ok (ARROW_RIGHT, w2)
              else if charVal seq1 = 68 then Res.ok (ARROW_LEFT, w2)
              else if charVal seq1 = 72 then Res.ok (HOME_KEY, w2)
              else if charVal seq1 = 70 then Res.ok (END_KEY, w2)
              else Res.ok (ESC, w2)
          else if charVal seq0 = 79 then
            if charVal seq1 = 72 then Res.ok (HOME_KEY, w2)
            else if charVal seq1 = 70 then Res.ok (END_KEY, w2)
            else Res.ok (ESC, w2)
          else Res.ok (ESC, w2)
        | (_, w2) => Res.ok (ESC, w2)
      | (_, w1) => Res.ok (ESC, w1)
    else Res.ok (charVal c, w0)
  | Res.oob i => Res.oob i
  | Res.died msg => Res.died msg
  | Res.quit => Res.quit
  | Res.blocked => Res.blocked

/-- The function `editorProcessKeyPress()`: read one key, then dispatch on it. -/
def editorProcessKeyPress (w : World) (E : editorConfigs) : Run (World × editorConfigs) :=
  match editorReadKey w with
  | Res.ok (c, w1) =>
    match processKey c E with
    | ⟨rs, Res.ok E1⟩ => ⟨rs, Res.ok (w1, E1)⟩
    | ⟨rs, Res.oob i⟩ => ⟨rs, Res.oob i⟩
    | ⟨rs, Res.died msg⟩ => ⟨rs, Res.died msg⟩
    | ⟨rs, Res.quit⟩ => ⟨rs, Res.quit⟩
    | ⟨rs, Res.blocked⟩ => ⟨rs, Res.blocked⟩
  | Res.oob i => ⟨[], Res.oob i⟩
  | Res.died msg => ⟨[], Res.died msg⟩
  | Res.quit => ⟨[], Res.quit⟩
  | Res.blocked => ⟨[], Res.blocked⟩

/-! ## Start-up (`getWindowSize`, `initEditor`) -/

/-- The fields of `struct winsize` that are used (both `unsigned short`). -/
structure winsize where
  ws_row : Nat
  ws_col : Nat
deriving DecidableEq

/-- The function `getWindowSize(&rows, &cols)`; the argument is what
`ioctl(STDOUT_FILENO, TIOCGWINSZ, &ws)` stored, `none` when it returned -1.
The result is `none` for the return value -1, else `(rows, cols)`. -/
def getWindowSize (ioctl : Option winsize) : Option (Int × Int) :=
  match ioctl with
  | none => none
  | some ws => if ws.ws_col = 0 then none else some (Int.ofNat ws.ws_row, Int.ofNat ws.ws_col)

/-- The function `initEditor()`. -/
def initEditor (ioctl : Option winsize) : Res editorConfigs :=
  match getWindowSize ioctl with
  | none => Res.died "getWindowSize"
  | some (rows, cols) =>
    Res.ok { cx := 0, cy := 0, numRows := 0, rows := [], rowOff := 0, colOff := 0,
             screenRows := rows, screenCols := cols }

/-! ## File loading (`editorAppendRow`, `editorOpen`) -/

/-- The function `editorAppendRow(line, len)`, as far as the contents go that its
stores write: the new row holds a copy of the first `len` bytes of `line` and
records `len`.  The bounds of the block that the call allocates for the record,
and the width of `len`, are in `editorAppendRowHeap`. -/
def editorAppendRow (line : List Nat) (len : Nat) (E : editorConfigs) : editorConfigs :=
  { E with rows := E.rows ++ [⟨line.take len, Int.ofNat len⟩], numRows := E.numRows + 1 }

/-- The line that `getline` cuts off a non-empty stream: everything up to and
including the first `'\n'`, or the whole stream when it has none; and the rest. -/
def nextLine : List Nat → List Nat × List Nat
  | [] => ([], [])
  | b :: bs => if b = 10 then ([10], bs) else ((nextLine bs).1.cons b, (nextLine bs).2)

/-- The library call `getline(&line, &lineCap, fp)` on the bytes not yet read:
`none` for the result -1 (end of file). -/
def getline (fp : List Nat) : Option (List Nat × List Nat) :=
  match fp with
  | [] => none
  | b :: bs => some (nextLine (b :: bs))

/-- The loop `while (lineLen > 0 && (line[lineLen - 1] == '\n' ||
line[lineLen - 1] == '\r')) lineLen--;`, started at `lineLen`. -/
def stripLen (line : List Nat) : Nat → Nat
  | 0 => 0
  | lineLen + 1 =>
    if line.get? lineLen = some 10 ∨ line.get? lineLen = some 13 then stripLen line lineLen
    else lineLen + 1

/-- The loop `while ((lineLen = getline(...)) != -1) { ...; editorAppendRow(line,
lineLen); }` of `editorOpen`, over the bytes of the file not yet read.  The first
argument bounds the number of rounds. -/
def editorOpenLoop : Nat → List Nat → editorConfigs → editorConfigs
  | 0, _, E => E
  | rounds + 1, fp, E =>
    match getline fp with
    | none => E
    | some (line, rest) =>
      editorOpenLoop rounds rest (editorAppendRow line (stripLen line line.length) E)

/-- The function `editorOpen(filename)`; the argument is the content of the file,
`none` when `fopen` fails.  Every `getline` that succeeds takes at least one byte,
so the loop makes at most `fp.length` rounds before `getline` returns -1. -/
def editorOpen (file : Option (List Nat)) (E : editorConfigs) : Res editorConfigs :=
  match file with
  | none => Res.died "fopen"
  | some fp => Res.ok (editorOpenLoop (fp.length + 1) fp E)

/-- The start of `main`: `initEditor()`, then `editorOpen(argv[1])` when a file
name was given (`arg = some file`). -/
def startup (ioctl : Option winsize) (arg : Option (Option (List Nat))) : Res editorConfigs :=
  match initEditor ioctl with
  | Res.ok E =>
    match arg with
    | none => Res.ok E
    | some file => editorOpen file E
  | r => r

/-- The viewport state after the key events `keys` are applied in turn, each by
the `switch` of `editorProcessKeyPress`. -/
def applyKeys : List Int → editorConfigs → Res editorConfigs
  | [], E => Res.ok E
  | c :: keys, E =>
    match (processKey c E).res with
    | Res.ok E1 => applyKeys keys E1
    | r => r

/-! ## File loading with the bounds of the heap blocks -/

/-- The value that the `int` parameter `len` of `editorAppendRow` takes for the
`ssize_t` argument `lineLen`: the conversion to a 32-bit `int`. -/
def intOfSsize (lineLen : Nat) : Int :=
  if lineLen % 4294967296 < 2147483648 then Int.ofNat (lineLen % 4294967296)
  else Int.ofNat (lineLen % 4294967296) - 4294967296

/-- The size of the block that `erow *row = malloc(len + 1)` asks for. -/
def rowBlockSize (len : Int) : Int := len + 1

/-- The number of bytes of that block which the stores `row->len = len` and
`row->line = ...` need: in `erow` the pointer `line` takes bytes 0 to 7 and the
`int len` bytes 8 to 11 (64-bit layout). -/
def rowStoreEnd : Int := 12

/-- The function `editorAppendRow(line, len)` called with the `ssize_t` value
`lineLen`, with the bounds of the block of the record: `none` (undefined
behaviour) when `len` is negative or a store to the record falls outside the
block that `malloc(len + 1)` returned. -/
def editorAppendRowHeap (line : List Nat) (lineLen : Nat) (E : editorConfigs) :
    Option editorConfigs :=
  if 0 ≤ intOfSsize lineLen ∧ rowStoreEnd ≤ rowBlockSize (intOfSsize lineLen) then
    some (editorAppendRow line (intOfSsize lineLen).toNat E)
  else none

/-- The loop of `editorOpen` with the bounds of the heap blocks. -/
def editorOpenLoopHeap : Nat → List Nat → editorConfigs → Option editorConfigs
  | 0, _, E => some E
  | rounds + 1, fp, E =>
    match getline fp with
    | none => some E
    | some (line, rest) =>
      match editorAppendRowHeap line (stripLen line line.length) E with
      | some E1 => editorOpenLoopHeap rounds rest E1
      | none => none

/-- The function `editorOpen(filename)` with the bounds of the heap blocks:
`none` when a store falls outside its block. -/
def editorOpenHeap (file : Option (List Nat)) (E : editorConfigs) :
    Option (Res editorConfigs) :=
  match file with
  | none => some (Res.died "fopen")
  | some fp => (editorOpenLoopHeap (fp.length + 1) fp E).map Res.ok

/-! ## Predicates used in the statements -/

/-- The viewport invariant of the data model: `0 <= rowOffset`,
`0 <= cursorRow < screenRows`, `rowOffset + cursorRow <= numRows`. -/
def viewportInv (E : editorConfigs) : Prop :=
  0 ≤ E.rowOff ∧ 0 ≤ E.cy ∧ E.cy < E.screenRows ∧ E.rowOff + E.cy ≤ E.numRows

instance (E : editorConfigs) : Decidable (viewportInv E) := by
  unfold viewportInv; infer_instance

/-- The state of the editor started on a 24 by 80 terminal without a file. -/
def emptyEditor : editorConfigs :=
  { cx := 0, cy := 0, screenRows := 24, screenCols := 80, numRows := 0, rows := [],
    rowOff := 0, colOff := 0 }

/-- The state of the editor started on a 24 by 80 terminal with a file that holds
the one line `hello`. -/
def oneLineEditor : editorConfigs :=
  { cx := 0, cy := 0, screenRows := 24, screenCols := 80, numRows := 1,
    rows := [⟨[104, 101, 108, 108, 111], 5⟩], rowOff := 0, colOff := 0 }

/-- The decoding table of the key decoder as the specification lists it: the
bytes that follow the escape byte, and the key they stand for.  91 is `[`, 79 is
`O`, 126 is `~`, 49..56 are the digits 1..8, 65..72 the letters A..H. -/
def escapeTable : List (List Nat × Int) :=
  [([91, 49, 126], HOME_KEY), ([91, 55, 126], HOME_KEY), ([91, 51, 126], DEL_KEY),
   ([91, 52, 126], END_KEY), ([91, 56, 126], END_KEY), ([91, 53, 126], PAGE_UP),
   ([91, 54, 126], PAGE_DOWN),
   ([91, 65], ARROW_UP), ([91, 66], ARROW_DOWN), ([91, 67], ARROW_RIGHT),
   ([91, 68], ARROW_LEFT), ([91, 72], HOME_KEY), ([91, 70], END_KEY),
   ([79, 72], HOME_KEY), ([79, 70], END_KEY)]

/-- Standard input gives the bytes `seq` next, and this input is left: the
specification's reading of "the sequence is ...", with every byte of the sequence
arriving on standard input (descriptor 0).  `none` when a byte is missing or
differs. -/
def deliver : List Nat → World → Option World
  | [], w => some w
  | b :: seq, w =>
    match read STDIN_FILENO w with
    | (ReadResult.byte b', w') =>
      if charVal b' = Int.ofNat b then deliver seq w' else none
    | _ => none

/-- The lines of a file, each with its terminating `'\n'` (byte 10); only the
last line may lack the terminator.  Defined byte by byte, without `getline`. -/
def fileLines : List Nat → List (List Nat)
  | [] => []
  | b :: bs =>
    if b = 10 then [10] :: fileLines bs
    else
      match fileLines bs with
      | [] => [[b]]
      | l :: ls => (b :: l) :: ls

/-- The bytes that `editorOpen` stores for the raw line `line`: the copy that
`editorAppendRow` makes of the first `lineLen` bytes, for the `lineLen` that the
stripping loop leaves. -/
def storedLine (line : List Nat) : List Nat :=
  line.take (stripLen line line.length)

/-- A two-line buffer (`ab`, `c`) on a 24 by 80 terminal with the cursor on the
last line. -/
def twoLineEditor : editorConfigs :=
  { cx := 0, cy := 1, screenRows := 24, screenCols := 80, numRows := 2,
    rows := [⟨[97, 98], 2⟩, ⟨[99], 1⟩], rowOff := 0, colOff := 0 }

/-- A buffer of 100 empty lines on a terminal with 20 rows, cursor at the top. -/
def hundredLineEditor : editorConfigs :=
  { cx := 0, cy := 0, screenRows := 20, screenCols := 80, numRows := 100,
    rows := List.replicate 100 ⟨[], 0⟩, rowOff := 0, colOff := 0 }

/-- The one-line buffer `hello` on a 24 by 80 terminal with the cursor on the
line, in column 3. -/
def midLineEditor : editorConfigs :=
  { cx := 3, cy := 0, screenRows := 24, screenCols := 80, numRows := 1,
    rows := [⟨[104, 101, 108, 108, 111], 5⟩], rowOff := 0, colOff := 3 }

/-- The length of the line under the cursor, and 0 when the cursor is on no line. -/
def lineLenAt (E : editorConfigs) : Int :=
  (rowLen E (E.rowOff + E.cy)).getD 0

/-- The column bound of the data model: `0 <= cursorCol <= max(L.length,
screenCols - 1)` for the line `L` under the cursor. -/
def colBound (E : editorConfigs) : Prop :=
  0 ≤ E.cx ∧ E.cx ≤ max (lineLenAt E) (E.screenCols - 1)

instance (E : editorConfigs) : Decidable (colBound E) := by
  unfold colBound; infer_instance

/-! ## Output (`abAppend`, `printWelcome`, `editorDrawRows`, `editorRefreshScreen`) -/

/-- How building the output buffer `struct abuf` ends. -/
inductive Draw where
  /-- the bytes of the buffer -/
  | ok (ab : List Nat)
  /-- the access `E.rows[index]` with `index` outside `0 .. numRows-1` -/
  | oob (index : Int)
  /-- the call `memcpy(.., s, len)` with `len` negative or beyond the bytes of `s` -/
  | badLen (len : Int)
deriving DecidableEq

/-- The statements that follow a step run on its buffer; a fault ends the run. -/
def Draw.bind (d : Draw) (f : List Nat → Draw) : Draw :=
  match d with
  | Draw.ok ab => f ab
  | Draw.oob i => Draw.oob i
  | Draw.badLen n => Draw.badLen n

/-- The function `abAppend(ab, s, len)`: the first `len` bytes of `s` are copied to
the end of the buffer (the allocation is taken to succeed). -/
def abAppend (ab : List Nat) (s : List Nat) (len : Int) : Draw :=
  if 0 ≤ len ∧ len ≤ Int.ofNat s.length then Draw.ok (ab ++ s.take len.toNat)
  else Draw.badLen len

/-- The macro `KILO_VERSION`, the string `0.0.1`. -/
def KILO_VERSION : List Nat := [48, 46, 48, 46, 49]

/-- The text that `snprintf(welcome, sizeof(welcome), " Kilo editor -- version %s",
KILO_VERSION)` stores: 29 bytes, within the 80 of `welcome`. -/
def welcome : List Nat :=
  [32, 75, 105, 108, 111, 32, 101, 100, 105, 116, 111, 114, 32, 45, 45, 32,
   118, 101, 114, 115, 105, 111, 110, 32] ++ KILO_VERSION

/-- The loop `while (padding--) abAppend(ab, " ", 1);` for a non-negative
`padding`. -/
def padLoop : Nat → List Nat → Draw
  | 0, ab => Draw.ok ab
  | padding + 1, ab => (abAppend ab [32] 1).bind (padLoop padding)

/-- The function `printWelcome(ab)`.  In the `else` branch `padding` is not
negative, since `welcomeLen <= E.screenCols` there. -/
def printWelcome (E : editorConfigs) (ab : List Nat) : Draw :=
  let welcomeLen : Int := Int.ofNat welcome.length
  if welcomeLen > E.screenCols then abAppend ab welcome E.screenCols
  else
    (padLoop ((E.screenCols - welcomeLen).tdiv 2).toNat ab).bind
      fun ab1 => abAppend ab1 welcome welcomeLen

/-- The access `E.rows[i]`; `none` when `i` is not an index of a loaded line. -/
def rowAt (E : editorConfigs) (i : Int) : Option erow :=
  if 0 ≤ i ∧ i < E.numRows then E.rows.get? i.toNat else none

/-- The body of the `for` loop of `editorDrawRows`, for the screen row `y`. -/
def drawRow (E : editorConfigs) (y : Int) (ab : List Nat) : Draw :=
  let fileRow : Int := y + E.rowOff
  let content : Draw :=
    if fileRow < E.numRows then
      match rowAt E fileRow with
      | some row => abAppend ab row.line (if row.len > E.screenCols then E.screenCols else row.len)
      | none => Draw.oob fileRow
    else
      (abAppend ab [126] 1).bind fun ab1 =>
        if E.numRows = 0 ∧ y = E.screenRows.tdiv 3 then printWelcome E ab1 else Draw.ok ab1
  content.bind fun ab2 =>
    (abAppend ab2 [27, 91, 75] 3).bind fun ab3 =>
      if y < E.screenRows - 1 then abAppend ab3 [13, 10] 2 else Draw.ok ab3

/-- The loop `for (int y = ..; y < E.screenRows; y++)` of `editorDrawRows` with
`todo` rounds left, the next one for the screen row `y`. -/
def drawRowsLoop (E : editorConfigs) : Nat → Int → List Nat → Draw
  | 0, _, ab => Draw.ok ab
  | todo + 1, y, ab => (drawRow E y ab).bind (drawRowsLoop E todo (y + 1))

/-- The function `editorDrawRows(ab)`: the loop runs for `y = 0 .. screenRows-1`. -/
def editorDrawRows (E : editorConfigs) (ab : List Nat) : Draw :=
  drawRowsLoop E E.screenRows.toNat 0 ab

/-- The decimal digits of `n`, most significant first, as bytes; the first
argument bounds the number of digits. -/
def decDigits : Nat → Nat → List Nat
  | 0, _ => []
  | fuel + 1, n => if n < 10 then [48 + n] else decDigits fuel (n / 10) ++ [48 + n % 10]

/-- What the conversion `%d` prints for `n`. -/
def decimal (n : Int) : List Nat :=
  if n < 0 then 45 :: decDigits (n.natAbs + 1) n.natAbs else decDigits (n.natAbs + 1) n.natAbs

/-- The text that `snprintf(nbuf, sizeof(nbuf), "\x1b[%d;%dH", E.cy + 1, E.cx + 1)`
stores: at most 31 bytes fit in `nbuf` before the terminating zero. -/
def cursorText (E : editorConfigs) : List Nat :=
  ([27, 91] ++ decimal (E.cy + 1) ++ [59] ++ decimal (E.cx + 1) ++ [72]).take 31

/-- The function `editorRefreshScreen()`: the bytes handed to the one call
`write(STDOUT_FILENO, ab.b, ab.len)`. -/
def editorRefreshScreen (E : editorConfigs) : Draw :=
  (abAppend [] [27, 91, 72] 3).bind fun ab1 =>
    (editorDrawRows E ab1).bind fun ab2 =>
      abAppend ab2 (cursorText E) (Int.ofNat (cursorText E).length)

/-! ## Predicates and reference functions used in the statements of the output -/

/-- The buffer is as `editorAppendRow` builds it: `numRows` counts the rows and
every row records the number of its bytes. -/
def bufferOK (E : editorConfigs) : Prop :=
  E.numRows = Int.ofNat E.rows.length ∧ ∀ r ∈ E.rows, r.len = Int.ofNat r.line.length

/-- The welcome banner as the specification describes it: the text, left-padded
with spaces to centre it, truncated if wider than `screenCols`. -/
def bannerText (E : editorConfigs) : List Nat :=
  if E.screenCols < 29 then welcome.take E.screenCols.toNat
  else List.replicate ((E.screenCols - 29) / 2).toNat 32 ++ welcome

/-- What the specification puts on screen row `y` before the erase sequence: the
line `rowOff + y` truncated to `screenCols` bytes, else the placeholder `~`,
followed by the banner on row `screenRows / 3` of an empty buffer. -/
def rowContent (E : editorConfigs) (y : Nat) : List Nat :=
  if E.rowOff + Int.ofNat y < E.numRows then
    match E.rows.get? (E.rowOff + Int.ofNat y).toNat with
    | some row => row.line.take (min row.line.length E.screenCols.toNat)
    | none => []
  else if E.numRows = 0 ∧ Int.ofNat y = E.screenRows / 3 then [126] ++ bannerText E
  else [126]

/-- The segment of screen row `y`: its content, the erase-to-end-of-line sequence
`ESC [ K`, and the line break `\r\n` unless the row is the last. -/
def rowSegment (E : editorConfigs) (y : Nat) : List Nat :=
  rowContent E y ++ [27, 91, 75] ++ (if Int.ofNat y < E.screenRows - 1 then [13, 10] else [])

/-- The segments of the screen rows `0 .. screenRows-1`, in order. -/
def rowSegments (E : editorConfigs) : List (List Nat) :=
  (List.range E.screenRows.toNat).map (rowSegment E)

/-- The number that a list of decimal digit bytes stands for. -/
def digitsValue (ds : List Nat) : Nat :=
  ds.foldl (fun acc d => 10 * acc + (d - 48)) 0

/-- The buffer `hello world` on a terminal with 3 rows and 5 columns. -/
def helloWorldEditor : editorConfigs :=
  { cx := 0, cy := 0, screenRows := 3, screenCols := 5, numRows := 1,
    rows := [⟨[104, 101, 108, 108, 111, 32, 119, 111, 114, 108, 100], 11⟩],
    rowOff := 0, colOff := 0 }

/-- The editor started without a file on a terminal with 24 rows and 20 columns. -/
def narrowEditor : editorConfigs :=
  { cx := 0, cy := 0, screenRows := 24, screenCols := 20, numRows := 0, rows := [],
    rowOff := 0, colOff := 0 }

/-! ## Line access (C1) -/

/-- C1, evaluated on the code: the states that start-up produces on a 24 by 80
terminal, without a file and with the one-line file `hello\n`, satisfy the
viewport invariant; in the first `ArrowUp` and `ArrowRight` access line 0 of a
buffer with `numRows = 0`, in the second `ArrowDown` and `PageDown` access line 1
of a buffer with `numRows = 1`. The out-of-range access is reached. -/
theorem line_access_out_of_range :
    startup (some ⟨24, 80⟩) none = Res.ok emptyEditor ∧ viewportInv emptyEditor ∧
    processKey ARROW_UP emptyEditor = ⟨[0], Res.oob 0⟩ ∧
    processKey ARROW_RIGHT emptyEditor = ⟨[0], Res.oob 0⟩ ∧
    startup (some ⟨24, 80⟩) (some (some [104, 101, 108, 108, 111, 10])) = Res.ok oneLineEditor ∧
    viewportInv oneLineEditor ∧
    processKey ARROW_DOWN oneLineEditor = ⟨[1], Res.oob 1⟩ ∧
    processKey PAGE_DOWN oneLineEditor = ⟨[1], Res.oob 1⟩ := by
  refine ⟨by rfl, by decide, by rfl, by rfl, by rfl, by decide, by rfl, by rfl⟩

/-! ## The viewport invariant over runs (C2) -/

theorem setColumn_frame (E : editorConfigs) (n : Int) :
    (setColumn E n).cy = E.cy ∧ (setColumn E n).rowOff = E.rowOff ∧
    (setColumn E n).numRows = E.numRows ∧ (setColumn E n).rows = E.rows ∧
    (setColumn E n).screenRows = E.screenRows ∧ (setColumn E n).screenCols = E.screenCols ∧
    (setColumn E n).colOff = E.colOff := by
  unfold setColumn
  split <;> simp

theorem readLineAndSetColumn_frame (E E' : editorConfigs)
    (h : (readLineAndSetColumn E).res = Res.ok E') :
    E'.cy = E.cy ∧ E'.rowOff = E.rowOff ∧ E'.numRows = E.numRows ∧ E'.rows = E.rows ∧
    E'.screenRows = E.screenRows ∧ E'.screenCols = E.screenCols ∧ E'.colOff = E.colOff := by
  unfold readLineAndSetColumn at h
  split at h
  · simp only [Res.ok.injEq] at h
    subst h
    exact setColumn_frame E _
  · simp at h

theorem editMoveCursor_inv (key : Int) (E E' : editorConfigs)
    (h : (editMoveCursor key E).res = Res.ok E') (hi : viewportInv E) :
    viewportInv E' ∧ E'.numRows = E.numRows ∧ E'.rows = E.rows ∧
    E'.screenRows = E.screenRows ∧ E'.screenCols = E.screenCols := by
  unfold viewportInv at *
  unfold editMoveCursor at h
  split_ifs at h
  all_goals first
    | (have hf := readLineAndSetColumn_frame _ _ h
       simp only [] at hf
       obtain ⟨h1, h2, h3, h4, h5, h6, -⟩ := hf
       rw [h1, h2, h3, h4, h5, h6]
       simp only [and_true]
       omega)
    | (simp only [Res.ok.injEq] at h
       subst h
       simp only [and_true]
       omega)
    | (split at h
       · split_ifs at h <;>
           (simp only [Res.ok.injEq] at h
            subst h
            simp only [and_true]
            omega)
       · simp at h)

theorem pageLoop_inv (times : Nat) (key : Int) :
    ∀ E E' : editorConfigs, (pageLoop times key E).res = Res.ok E' → viewportInv E →
      viewportInv E' ∧ E'.numRows = E.numRows ∧ E'.rows = E.rows ∧
      E'.screenRows = E.screenRows ∧ E'.screenCols = E.screenCols := by
  induction times with
  | zero =>
    intro E E' h hi
    simp only [pageLoop, Res.ok.injEq] at h
    subst h
    exact ⟨hi, rfl, rfl, rfl, rfl⟩
  | succ t ih =>
    intro E E' h hi
    unfold pageLoop at h
    cases hm : editMoveCursor key E with
    | mk rs r =>
      cases r with
      | ok E1 =>
        rw [hm] at h
        simp only [] at h
        have h1 := editMoveCursor_inv key E E1 (by rw [hm]) hi
        have h2 := ih E1 E' h h1.1
        obtain ⟨a, b, c, d, e⟩ := h2
        obtain ⟨-, b1, c1, d1, e1⟩ := h1
        exact ⟨a, b.trans b1, c.trans c1, d.trans d1, e.trans e1⟩
      | oob i => rw [hm] at h; simp at h
      | died m => rw [hm] at h; simp at h
      | quit => rw [hm] at h; simp at h
      | blocked => rw [hm] at h; simp at h

theorem processKey_inv (c : Int) (E E' : editorConfigs)
    (h : (processKey c E).res = Res.ok E') (hi : viewportInv E) :
    viewportInv E' ∧ E'.numRows = E.numRows ∧ E'.rows = E.rows ∧
    E'.screenRows = E.screenRows ∧ E'.screenCols = E.screenCols := by
  unfold processKey at h
  split_ifs at h
  all_goals first
    | exact editMoveCursor_inv c E E' h hi
    | exact pageLoop_inv _ _ E E' h hi
    | (obtain rfl : E = E' := by simpa using h
       exact ⟨hi, rfl, rfl, rfl, rfl⟩)

theorem applyKeys_inv (keys : List Int) :
    ∀ E E' : editorConfigs, applyKeys keys E = Res.ok E' → viewportInv E → viewportInv E' := by
  induction keys with
  | nil =>
    intro E E' h hi
    simp only [applyKeys, Res.ok.injEq] at h
    subst h
    exact hi
  | cons c keys ih =>
    intro E E' h hi
    unfold applyKeys at h
    cases hp : (processKey c E).res with
    | ok E1 =>
      rw [hp] at h
      exact ih E1 E' h (processKey_inv c E E1 hp hi).1
    | oob i => rw [hp] at h; simp at h
    | died m => rw [hp] at h; simp at h
    | quit => rw [hp] at h; simp at h
    | blocked => rw [hp] at h; simp at h

theorem editorOpenLoop_frame (rounds : Nat) :
    ∀ (fp : List Nat) (E : editorConfigs),
      (editorOpenLoop rounds fp E).cx = E.cx ∧ (editorOpenLoop rounds fp E).cy = E.cy ∧
      (editorOpenLoop rounds fp E).rowOff = E.rowOff ∧
      (editorOpenLoop rounds fp E).colOff = E.colOff ∧
      (editorOpenLoop rounds fp E).screenRows = E.screenRows ∧
      (editorOpenLoop rounds fp E).screenCols = E.screenCols ∧
      E.numRows ≤ (editorOpenLoop rounds fp E).numRows := by
  induction rounds with
  | zero => intro fp E; simp [editorOpenLoop]
  | succ n ih =>
    intro fp E
    unfold editorOpenLoop
    cases hg : getline fp with
    | none => simp
    | some p =>
      obtain ⟨line, rest⟩ := p
      simp only []
      have := ih rest (editorAppendRow line (stripLen line line.length) E)
      simp only [editorAppendRow] at this ⊢
      obtain ⟨a, b, c, d, e, f, g⟩ := this
      refine ⟨a, b, c, d, e, f, ?_⟩
      omega

theorem startup_inv (ws : winsize) (arg : Option (Option (List Nat))) (E : editorConfigs)
    (hrow : 1 ≤ ws.ws_row) (h : startup (some ws) arg = Res.ok E) : viewportInv E := by
  unfold startup initEditor getWindowSize at h
  by_cases hc : ws.ws_col = 0
  · simp [hc] at h
  · simp only [hc, if_false] at h
    cases arg with
    | none =>
      simp only [Res.ok.injEq] at h
      subst h
      simp only [viewportInv, Int.ofNat_eq_coe]
      omega
    | some file =>
      cases file with
      | none => simp [editorOpen] at h
      | some fp =>
        simp only [editorOpen, Res.ok.injEq] at h
        subst h
        have hf := editorOpenLoop_frame (fp.length + 1) fp
          { cx := 0, cy := 0, numRows := 0, rows := [], rowOff := 0, colOff := 0,
            screenRows := Int.ofNat ws.ws_row, screenCols := Int.ofNat ws.ws_col }
        obtain ⟨-, b, c, -, e, -, g⟩ := hf
        simp only [Int.ofNat_eq_coe] at b c e g
        unfold viewportInv
        simp only [Int.ofNat_eq_coe]
        rw [b, c, e]
        omega

/-- C2, as stated, fails: a window-size query that succeeds may report zero rows
(only zero columns are rejected), and then the initial state has
`cursorRow = 0 = screenRows`. -/
theorem viewport_invariant_zero_rows :
    ∃ E, startup (some ⟨0, 80⟩) none = Res.ok E ∧ applyKeys [] E = Res.ok E ∧
      ¬ (0 ≤ E.rowOff ∧ (0 ≤ E.cy ∧ E.cy < E.screenRows) ∧ E.rowOff + E.cy ≤ E.numRows) :=
  ⟨{ cx := 0, cy := 0, screenRows := 0, screenCols := 80, numRows := 0, rows := [],
     rowOff := 0, colOff := 0 }, by rfl, by rfl, by decide⟩

/-- C2, amended: when the window-size query succeeds and reports at least one row,
every state reached from the initial state (with any file loaded, or none) by any
finite sequence of key events satisfies `0 <= rowOff`, `0 <= cy < screenRows` and
`rowOff + cy <= numRows`. -/
theorem viewport_invariant_reachable (ws : winsize) (arg : Option (Option (List Nat)))
    (keys : List Int) (E0 E : editorConfigs) (hrow : 1 ≤ ws.ws_row)
    (h0 : startup (some ws) arg = Res.ok E0) (hk : applyKeys keys E0 = Res.ok E) :
    0 ≤ E.rowOff ∧ (0 ≤ E.cy ∧ E.cy < E.screenRows) ∧ E.rowOff + E.cy ≤ E.numRows := by
  have h := applyKeys_inv keys E0 E hk (startup_inv ws arg E0 hrow h0)
  unfold viewportInv at h
  tauto

theorem viewport_invariant_reachable_witness :
    (0 : Int) ≤ 0 ∧ ((0 : Int) ≤ 2 ∧ (2 : Int) < 24) ∧ (0 : Int) + 2 ≤ 3 :=
  viewport_invariant_reachable ⟨24, 80⟩ (some (some [10, 10, 10])) [ARROW_DOWN, ARROW_DOWN]
    { cx := 0, cy := 0, screenRows := 24, screenCols := 80, numRows := 3,
      rows := [⟨[], 0⟩, ⟨[], 0⟩, ⟨[], 0⟩], rowOff := 0, colOff := 0 }
    { cx := 0, cy := 2, screenRows := 24, screenCols := 80, numRows := 3,
      rows := [⟨[], 0⟩, ⟨[], 0⟩, ⟨[], 0⟩], rowOff := 0, colOff := 0 }
    (by decide) (by rfl) (by rfl)

/-! ## Key decoding (C3, C4) -/

/-- C3, evaluated on the code: standard input gives `ESC [ A`, `ESC [ 5 ~` and
`ESC O H`, sequences of the decoding table (for `ArrowUp`, `PageUp` and `Home`),
while descriptor 1 is not open on the input terminal and has nothing to read.
`editorReadKey` returns the escape key each time and leaves the rest of the
sequence unread on standard input. -/
theorem table_sequence_not_decoded :
    ([91, 65], ARROW_UP) ∈ escapeTable ∧
    deliver [91, 65]
        ⟨[ReadResult.byte 91, ReadResult.byte 65, ReadResult.byte 120], [], false⟩ =
      some ⟨[ReadResult.byte 120], [], false⟩ ∧
    editorReadKey
        ⟨[ReadResult.byte 27, ReadResult.byte 91, ReadResult.byte 65, ReadResult.byte 120],
          [], false⟩ =
      Res.ok (ESC, ⟨[ReadResult.byte 91, ReadResult.byte 65, ReadResult.byte 120], [], false⟩) ∧
    ([91, 53, 126], PAGE_UP) ∈ escapeTable ∧
    editorReadKey
        ⟨[ReadResult.byte 27, ReadResult.byte 91, ReadResult.byte 53, ReadResult.byte 126],
          [], false⟩ =
      Res.ok (ESC, ⟨[ReadResult.byte 91, ReadResult.byte 53, ReadResult.byte 126], [], false⟩) ∧
    ([79, 72], HOME_KEY) ∈ escapeTable ∧
    editorReadKey ⟨[ReadResult.byte 27, ReadResult.byte 79, ReadResult.byte 72], [], false⟩ =
      Res.ok (ESC, ⟨[ReadResult.byte 79, ReadResult.byte 72], [], false⟩) := by
  refine ⟨by decide, by rfl, by rfl, by decide, by rfl, by decide, by rfl⟩

/-- C4, evaluated on the code: standard input gives the escape byte and then
nothing, or the escape byte and then `x y`; neither input holds a sequence of the
decoding table.  Descriptor 1 is not open on the input terminal and delivers
`[ A`, respectively `O H`.  `editorReadKey` returns `ARROW_UP`, respectively
`HOME_KEY`, not the escape key. -/
theorem unrecognized_input_not_escape :
    (∀ p ∈ escapeTable,
      deliver p.1 ⟨[], [ReadResult.byte 91, ReadResult.byte 65], false⟩ = none) ∧
    editorReadKey ⟨[ReadResult.byte 27], [ReadResult.byte 91, ReadResult.byte 65], false⟩ =
      Res.ok (ARROW_UP, ⟨[], [], false⟩) ∧
    (∀ p ∈ escapeTable,
      deliver p.1 ⟨[ReadResult.byte 120, ReadResult.byte 121],
        [ReadResult.byte 79, ReadResult.byte 72], false⟩ = none) ∧
    editorReadKey ⟨[ReadResult.byte 27, ReadResult.byte 120, ReadResult.byte 121],
        [ReadResult.byte 79, ReadResult.byte 72], false⟩ =
      Res.ok (HOME_KEY, ⟨[ReadResult.byte 120, ReadResult.byte 121], [], false⟩) := by
  refine ⟨by decide, by rfl, by decide, by rfl⟩

theorem read_sameTerminal (fd : Nat) (w : World) (hs : w.sameTerminal = true) :
    read fd w = read STDIN_FILENO w ∧ (read fd w).2.sameTerminal = true := by
  unfold read
  rw [if_pos (Or.inr hs), if_pos (Or.inl rfl)]
  cases w.stdin with
  | nil => exact ⟨rfl, hs⟩
  | cons r rest => exact ⟨rfl, hs⟩

theorem deliver_cons_some (b : Nat) (seq : List Nat) (w w' : World)
    (h : deliver (b :: seq) w = some w') :
    ∃ b' w1, read STDIN_FILENO w = (ReadResult.byte b', w1) ∧
      charVal b' = Int.ofNat b ∧ deliver seq w1 = some w' := by
  unfold deliver at h
  rcases hr : read STDIN_FILENO w with ⟨r, w1⟩
  rw [hr] at h
  cases r with
  | byte b' =>
    simp only [] at h
    split_ifs at h with e
    exact ⟨b', w1, rfl, e, h⟩
  | empty => simp at h
  | again => simp at h
  | error => simp at h

theorem deliver_two (a b : Nat) (w w' : World) (hs : w.sameTerminal = true)
    (h : deliver [a, b] w = some w') :
    ∃ s0 s1 w1, read STDOUT_FILENO w = (ReadResult.byte s0, w1) ∧ charVal s0 = Int.ofNat a ∧
      read STDOUT_FILENO w1 = (ReadResult.byte s1, w') ∧ charVal s1 = Int.ofNat b := by
  obtain ⟨s0, w1, hr1, e0, h⟩ := deliver_cons_some _ _ _ _ h
  obtain ⟨s1, w2, hr2, e1, h⟩ := deliver_cons_some _ _ _ _ h
  simp only [deliver, Option.some.injEq] at h
  subst h
  have hs1 : w1.sameTerminal = true := by
    have := (read_sameTerminal STDIN_FILENO w hs).2
    rw [hr1] at this
    exact this
  exact ⟨s0, s1, w1, by rw [(read_sameTerminal _ w hs).1, hr1], e0,
    by rw [(read_sameTerminal _ w1 hs1).1, hr2], e1⟩

theorem deliver_three (a b d : Nat) (w w' : World) (hs : w.sameTerminal = true)
    (h : deliver [a, b, d] w = some w') :
    ∃ s0 s1 s2 w1 w2, read STDOUT_FILENO w = (ReadResult.byte s0, w1) ∧
      charVal s0 = Int.ofNat a ∧ read STDOUT_FILENO w1 = (ReadResult.byte s1, w2) ∧
      charVal s1 = Int.ofNat b ∧ read STDIN_FILENO w2 = (ReadResult.byte s2, w') ∧
      charVal s2 = Int.ofNat d := by
  obtain ⟨s0, w1, hr1, e0, h⟩ := deliver_cons_some _ _ _ _ h
  obtain ⟨s1, w2, hr2, e1, h⟩ := deliver_cons_some _ _ _ _ h
  obtain ⟨s2, w3, hr3, e2, h⟩ := deliver_cons_some _ _ _ _ h
  simp only [deliver, Option.some.injEq] at h
  subst h
  have hs1 : w1.sameTerminal = true := by
    have := (read_sameTerminal STDIN_FILENO w hs).2
    rw [hr1] at this
    exact this
  exact ⟨s0, s1, s2, w1, w2, by rw [(read_sameTerminal _ w hs).1, hr1], e0,
    by rw [(read_sameTerminal _ w1 hs1).1, hr2], e1, hr3, e2⟩

/-- Apart from the descriptor of the second and third byte: when descriptor 1 is
open on the same terminal as standard input, the first byte read is the escape
byte and standard input then gives one of the sequences of the decoding table,
`editorReadKey` returns the key of that table entry and has consumed exactly
that sequence. -/
theorem editorReadKey_table (w w' : World) (c : Nat) (rest : List ReadResult)
    (seq : List Nat) (key : Int) (hs : w.sameTerminal = true)
    (h1 : readLoop w.stdin = Res.ok (c, rest)) (hc : charVal c = ESC)
    (ht : (seq, key) ∈ escapeTable)
    (hd : deliver seq { w with stdin := rest } = some w') :
    editorReadKey w = Res.ok (key, w') := by
  unfold editorReadKey
  rw [h1]
  simp only [hc, if_true]
  simp only [escapeTable, List.mem_cons, Prod.mk.injEq, List.mem_singleton, List.not_mem_nil,
    or_false] at ht
  have hs0 : ({ w with stdin := rest } : World).sameTerminal = true := hs
  rcases ht with ht | ht | ht | ht | ht | ht | ht | ht | ht | ht | ht | ht | ht | ht | ht
  all_goals
    obtain ⟨rfl, rfl⟩ := ht
    first
      | (obtain ⟨s0, s1, s2, w1, w2, hr1, e0, hr2, e1, hr3, e2⟩ :=
           deliver_three _ _ _ _ _ hs0 hd
         simp [hr1, hr2, hr3, e0, e1, e2])
      | (obtain ⟨s0, s1, w1, hr1, e0, hr2, e1⟩ := deliver_two _ _ _ _ hs0 hd
         simp [hr1, hr2, e0, e1])

theorem deliver_two_of_reads (a b s0 s1 : Nat) (w w1 w' : World) (hs : w.sameTerminal = true)
    (hr1 : read STDOUT_FILENO w = (ReadResult.byte s0, w1)) (e0 : charVal s0 = Int.ofNat a)
    (hr2 : read STDOUT_FILENO w1 = (ReadResult.byte s1, w')) (e1 : charVal s1 = Int.ofNat b) :
    deliver [a, b] w = some w' := by
  have hs1 : w1.sameTerminal = true := by
    have := (read_sameTerminal STDOUT_FILENO w hs).2
    rw [hr1] at this
    exact this
  rw [(read_sameTerminal _ w hs).1] at hr1
  rw [(read_sameTerminal _ w1 hs1).1] at hr2
  simp [deliver, hr1, hr2, e0, e1]

theorem deliver_three_of_reads (a b d s0 s1 s2 : Nat) (w w1 w2 w' : World)
    (hs : w.sameTerminal = true)
    (hr1 : read STDOUT_FILENO w = (ReadResult.byte s0, w1)) (e0 : charVal s0 = Int.ofNat a)
    (hr2 : read STDOUT_FILENO w1 = (ReadResult.byte s1, w2)) (e1 : charVal s1 = Int.ofNat b)
    (hr3 : read STDIN_FILENO w2 = (ReadResult.byte s2, w')) (e2 : charVal s2 = Int.ofNat d) :
    deliver [a, b, d] w = some w' := by
  have hs1 : w1.sameTerminal = true := by
    have := (read_sameTerminal STDOUT_FILENO w hs).2
    rw [hr1] at this
    exact this
  rw [(read_sameTerminal _ w hs).1] at hr1
  rw [(read_sameTerminal _ w1 hs1).1] at hr2
  simp [deliver, hr1, hr2, hr3, e0, e1, e2]

/-- Apart from the descriptor of the second and third byte: when descriptor 1 is
open on the same terminal as standard input, the first byte read is the escape
byte and standard input then gives none of the sequences of the decoding table
(a byte is missing, or the bytes form no table entry), `editorReadKey` returns
the escape key. -/
theorem editorReadKey_unrecognized (w : World) (c : Nat) (rest : List ReadResult)
    (hs : w.sameTerminal = true)
    (h1 : readLoop w.stdin = Res.ok (c, rest)) (hc : charVal c = ESC)
    (hn : ∀ p ∈ escapeTable, deliver p.1 { w with stdin := rest } = none) :
    ∃ w', editorReadKey w = Res.ok (ESC, w') := by
  rcases hr1 : read STDOUT_FILENO { w with stdin := rest } with ⟨r1, w1⟩
  rcases hr2 : read STDOUT_FILENO w1 with ⟨r2, w2⟩
  rcases hr3 : read STDIN_FILENO w2 with ⟨r3, w3⟩
  unfold editorReadKey
  rw [h1]
  simp only [hc, if_true, hr1]
  cases r1 with
  | byte s0 =>
    simp only [hr2]
    cases r2 with
    | byte s1 =>
      simp only []
      have two : ∀ (a b : Nat) (k : Int), ([a, b], k) ∈ escapeTable →
          charVal s0 = Int.ofNat a → charVal s1 = Int.ofNat b → False := by
        intro a b k hm e0 e1
        have := hn _ hm
        rw [deliver_two_of_reads a b s0 s1 _ w1 w2
          (show ({ w with stdin := rest } : World).sameTerminal = true from hs)
          hr1 e0 hr2 e1] at this
        cases this
      by_cases e0 : charVal s0 = 91
      · simp only [e0, if_true]
        by_cases dg : charVal s1 ≥ 48 ∧ charVal s1 ≤ 57
        · simp only [dg, and_self, if_true, hr3]
          cases r3 with
          | byte s2 =>
            have three : ∀ (a b d : Nat) (k : Int), ([a, b, d], k) ∈ escapeTable →
                charVal s0 = Int.ofNat a → charVal s1 = Int.ofNat b →
                charVal s2 = Int.ofNat d → False := by
              intro a b d k hm e0 e1 e2
              have := hn _ hm
              rw [deliver_three_of_reads a b d s0 s1 s2 _ w1 w2 w3
                (show ({ w with stdin := rest } : World).sameTerminal = true from hs)
                hr1 e0 hr2 e1 hr3 e2] at this
              cases this
            simp only []
            by_cases e2 : charVal s2 = 126
            · simp only [e2, if_true]
              split_ifs with a1 a2 a3 a4 a5 a6 a7
              · exact (three 91 49 126 HOME_KEY (by decide) e0 a1 e2).elim
              · exact (three 91 51 126 DEL_KEY (by decide) e0 a2 e2).elim
              · exact (three 91 52 126 END_KEY (by decide) e0 a3 e2).elim
              · exact (three 91 53 126 PAGE_UP (by decide) e0 a4 e2).elim
              · exact (three 91 54 126 PAGE_DOWN (by decide) e0 a5 e2).elim
              · exact (three 91 55 126 HOME_KEY (by decide) e0 a6 e2).elim
              · exact (three 91 56 126 END_KEY (by decide) e0 a7 e2).elim
              · exact ⟨_, rfl⟩
            · simp only [e2, if_false]
              exact ⟨_, rfl⟩
          | empty => exact ⟨_, rfl⟩
          | again => exact ⟨_, rfl⟩
          | error => exact ⟨_, rfl⟩
        · simp only [dg, if_false]
          split_ifs with a1 a2 a3 a4 a5 a6
          · exact (two 91 65 ARROW_UP (by decide) e0 a1).elim
          · exact (two 91 66 ARROW_DOWN (by decide) e0 a2).elim
          · exact (two 91 67 ARROW_RIGHT (by decide) e0 a3).elim
          · exact (two 91 68 ARROW_LEFT (by decide) e0 a4).elim
          · exact (two 91 72 HOME_KEY (by decide) e0 a5).elim
          · exact (two 91 70 END_KEY (by decide) e0 a6).elim
          · exact ⟨_, rfl⟩
      · simp only [e0, if_false]
        split_ifs with b0 a1 a2
        · exact (two 79 72 HOME_KEY (by decide) b0 a1).elim
        · exact (two 79 70 END_KEY (by decide) b0 a2).elim
        · exact ⟨_, rfl⟩
        · exact ⟨_, rfl⟩
    | empty => exact ⟨_, rfl⟩
    | again => exact ⟨_, rfl⟩
    | error => exact ⟨_, rfl⟩
  | empty => exact ⟨_, rfl⟩
  | again => exact ⟨_, rfl⟩
  | error => exact ⟨_, rfl⟩

/-! ## File loading (C5) -/

theorem nextLine_length (b : Nat) (bs : List Nat) :
    (nextLine (b :: bs)).2.length < (b :: bs).length := by
  induction bs generalizing b with
  | nil =>
    unfold nextLine
    split <;> simp [nextLine]
  | cons b' bs ih =>
    unfold nextLine
    split
    · simp
    · have := ih b'
      simp only [List.length_cons] at this ⊢
      omega

theorem fileLines_cons (b : Nat) (bs : List Nat) :
    fileLines (b :: bs) = (nextLine (b :: bs)).1 :: fileLines (nextLine (b :: bs)).2 := by
  induction bs generalizing b with
  | nil =>
    unfold fileLines nextLine
    split <;> simp [fileLines, nextLine]
  | cons b' bs ih =>
    by_cases hb : b = 10
    · rw [fileLines, nextLine]
      simp only [hb, if_true]
    · rw [fileLines, nextLine]
      simp only [hb, if_false]
      rw [ih b']

theorem stripLen_le (line : List Nat) (n : Nat) : stripLen line n ≤ n := by
  induction n with
  | zero => simp [stripLen]
  | succ n ih =>
    unfold stripLen
    split
    · omega
    · exact Nat.le_refl _

theorem storedLine_length (line : List Nat) :
    (storedLine line).length = stripLen line line.length := by
  unfold storedLine
  rw [List.length_take]
  exact Nat.min_eq_left (stripLen_le line line.length)

theorem editorOpenLoop_eq (rounds : Nat) :
    ∀ (fp : List Nat) (E : editorConfigs), fp.length < rounds →
      editorOpenLoop rounds fp E =
        { E with
          rows := E.rows ++ (fileLines fp).map
            (fun l => (⟨storedLine l, Int.ofNat (storedLine l).length⟩ : erow)),
          numRows := E.numRows + Int.ofNat (fileLines fp).length } := by
  induction rounds with
  | zero => intro fp E h; omega
  | succ n ih =>
    intro fp E h
    cases fp with
    | nil => simp [editorOpenLoop, getline, fileLines]
    | cons b bs =>
      have hl := nextLine_length b bs
      unfold editorOpenLoop
      simp only [getline]
      rw [ih _ _ (by simp only [List.length_cons] at h hl ⊢; omega), fileLines_cons]
      simp only [editorAppendRow, List.map_cons, List.length_cons, List.append_assoc,
        List.singleton_append, Int.ofNat_eq_coe, Nat.cast_add, Nat.cast_one, storedLine_length]
      congr 1
      omega

theorem fileLines_join (fp : List Nat) : (fileLines fp).flatten = fp := by
  induction fp with
  | nil => rfl
  | cons b bs ih =>
    unfold fileLines
    split
    · next hb => simp [ih, hb]
    · cases hl : fileLines bs with
      | nil =>
        rw [hl] at ih
        simp only [List.flatten_nil] at ih
        simp [← ih]
      | cons l ls =>
        rw [hl] at ih
        simp only [List.flatten_cons] at ih
        simp [ih]

theorem fileLines_shape (fp : List Nat) :
    (∀ l ∈ fileLines fp, l ≠ [] ∧ ∀ b ∈ l.dropLast, b ≠ 10) ∧
    (∀ l ∈ (fileLines fp).dropLast, l.getLast? = some 10) := by
  induction fp with
  | nil => simp [fileLines]
  | cons b bs ih =>
    unfold fileLines
    split
    · next hb =>
      refine ⟨?_, ?_⟩
      · intro l hl
        rcases List.mem_cons.1 hl with h | h
        · subst h; simp
        · exact ih.1 l h
      · intro l hl
        cases hf : fileLines bs with
        | nil => rw [hf] at hl; simp at hl
        | cons l' ls =>
          rw [hf] at hl ih
          rw [List.dropLast_cons₂] at hl
          rcases List.mem_cons.1 hl with h | h
          · subst h; rfl
          · exact ih.2 l h
    · next hb =>
      cases hf : fileLines bs with
      | nil => simp
      | cons l' ls =>
        rw [hf] at ih
        have hne : l' ≠ [] := (ih.1 l' (List.mem_cons_self _ _)).1
        obtain ⟨x, xs, rfl⟩ := List.exists_cons_of_ne_nil hne
        refine ⟨?_, ?_⟩
        · intro l hl
          rcases List.mem_cons.1 hl with h | h
          · subst h
            refine ⟨by simp, ?_⟩
            intro c hc
            rw [List.dropLast_cons₂] at hc
            rcases List.mem_cons.1 hc with h | h
            · subst h; exact hb
            · exact (ih.1 _ (List.mem_cons_self _ _)).2 c h
          · exact ih.1 l (List.mem_cons_of_mem _ h)
        · intro l hl
          cases ls with
          | nil => simp at hl
          | cons l2 ls2 =>
            rw [List.dropLast_cons₂] at hl
            rcases List.mem_cons.1 hl with h | h
            · subst h
              have := ih.2 (x :: xs) (by rw [List.dropLast_cons₂]; exact List.mem_cons_self _ _)
              simpa [List.getLast?_cons_cons] using this
            · exact ih.2 l (by rw [List.dropLast_cons₂]; exact List.mem_cons_of_mem _ h)

theorem stripLen_split (line : List Nat) (n : Nat) :
    ∃ rest, line.take n = line.take (stripLen line n) ++ rest ∧ ∀ b ∈ rest, b = 10 ∨ b = 13 := by
  induction n with
  | zero => exact ⟨[], by simp [stripLen]⟩
  | succ n ih =>
    unfold stripLen
    split
    · next hc =>
      obtain ⟨rest, h1, h2⟩ := ih
      refine ⟨rest ++ (line.get? n).toList, ?_, ?_⟩
      · rw [List.take_succ, h1, List.append_assoc, List.get?_eq_getElem?]
      · intro b hb
        rcases List.mem_append.1 hb with h | h
        · exact h2 b h
        · rcases hc with hc | hc <;> rw [hc] at h <;> simp at h <;> simp [h]
    · exact ⟨[], by simp⟩

theorem stripLen_last (line : List Nat) (n : Nat) (hn : n ≤ line.length) :
    (line.take (stripLen line n)).getLast? ≠ some 10 ∧
    (line.take (stripLen line n)).getLast? ≠ some 13 := by
  induction n with
  | zero => simp [stripLen]
  | succ n ih =>
    unfold stripLen
    split
    · exact ih (by omega)
    · next hc =>
      simp only [List.get?_eq_getElem?] at hc
      have hlt : n < line.length := by omega
      rw [List.take_succ, List.getElem?_eq_getElem hlt] at *
      simp only [Option.toList, List.getLast?_concat, ne_eq, Option.some.injEq]
      simp only [Option.some.injEq] at hc
      tauto

theorem storedLine_spec (line : List Nat) :
    (∃ rest, line = storedLine line ++ rest ∧ ∀ b ∈ rest, b = 10 ∨ b = 13) ∧
    (storedLine line).getLast? ≠ some 10 ∧ (storedLine line).getLast? ≠ some 13 := by
  refine ⟨?_, stripLen_last line line.length (Nat.le_refl _)⟩
  obtain ⟨rest, h1, h2⟩ := stripLen_split line line.length
  rw [List.take_length] at h1
  exact ⟨rest, h1, h2⟩

/-- Apart from the bounds of the heap blocks (the contents that the stores write):
`editorOpen` on a file that can be opened appends one row per line of the file, in file order (empty lines included).  The lines are those
of `fileLines`: they concatenate to the file, none is empty, a line holds `'\n'`
only as its last byte, and every line but the last ends in `'\n'`.  The row of a
line holds the line without its trailing `'\n'`/`'\r'` bytes (the line is the
stored bytes followed by bytes that are all `'\n'` or `'\r'`, and the stored
bytes do not end in `'\n'` or `'\r'`), and `len` is the number of stored bytes.
The file `abc\n\nde\r\n` loads as 3 rows with `len` 3, 0, 2 holding `abc`, the
empty line and `de`. -/
theorem editorOpen_rows (fp : List Nat) (E : editorConfigs) :
    editorOpen (some fp) E =
      Res.ok { E with
        rows := E.rows ++ (fileLines fp).map
          (fun l => (⟨storedLine l, Int.ofNat (storedLine l).length⟩ : erow)),
        numRows := E.numRows + Int.ofNat (fileLines fp).length } ∧
    (fileLines fp).flatten = fp ∧
    (∀ l ∈ fileLines fp, l ≠ [] ∧ ∀ b ∈ l.dropLast, b ≠ 10) ∧
    (∀ l ∈ (fileLines fp).dropLast, l.getLast? = some 10) ∧
    (∀ l : List Nat,
      (∃ rest, l = storedLine l ++ rest ∧ ∀ b ∈ rest, b = 10 ∨ b = 13) ∧
      (storedLine l).getLast? ≠ some 10 ∧ (storedLine l).getLast? ≠ some 13) ∧
    fileLines [97, 98, 99, 10, 10, 100, 101, 13, 10] =
      [[97, 98, 99, 10], [10], [100, 101, 13, 10]] ∧
    editorOpen (some [97, 98, 99, 10, 10, 100, 101, 13, 10])
        { cx := 0, cy := 0, screenRows := 24, screenCols := 80, numRows := 0, rows := [],
          rowOff := 0, colOff := 0 } =
      Res.ok { cx := 0, cy := 0, screenRows := 24, screenCols := 80, numRows := 3,
               rows := [⟨[97, 98, 99], 3⟩, ⟨[], 0⟩, ⟨[100, 101], 2⟩],
               rowOff := 0, colOff := 0 } := by
  refine ⟨?_, fileLines_join fp, (fileLines_shape fp).1, (fileLines_shape fp).2,
    storedLine_spec, by rfl, by rfl⟩
  simp only [editorOpen]
  rw [editorOpenLoop_eq (fp.length + 1) fp E (Nat.lt_succ_self _)]

/-- C5, evaluated on the code: the file `abc\n\nde\r\n` has the lines `abc\n`, `\n`
and `de\r\n`, stripped to 3, 0 and 2 bytes.  For each of them `editorAppendRow`
allocates `len + 1` bytes (4, 1 and 3) for the record `erow` and then stores
`row->len` and `row->line`, which need 12 bytes: the stores fall outside the
block, already for the first row, and loading does not yield the three rows. -/
theorem editorOpen_example_out_of_block :
    fileLines [97, 98, 99, 10, 10, 100, 101, 13, 10] =
      [[97, 98, 99, 10], [10], [100, 101, 13, 10]] ∧
    (fileLines [97, 98, 99, 10, 10, 100, 101, 13, 10]).map
      (fun l => rowBlockSize (intOfSsize (stripLen l l.length))) = [4, 1, 3] ∧
    rowStoreEnd = 12 ∧
    editorAppendRowHeap [97, 98, 99, 10] (stripLen [97, 98, 99, 10] 4) emptyEditor = none ∧
    editorOpenHeap (some [97, 98, 99, 10, 10, 100, 101, 13, 10]) emptyEditor = none := by
  refine ⟨by rfl, by rfl, by rfl, by rfl, by rfl⟩

theorem intOfSsize_small (n : Nat) (h : n < 2147483648) : intOfSsize n = Int.ofNat n := by
  unfold intOfSsize
  have hm : n % 4294967296 = n := Nat.mod_eq_of_lt (by omega)
  rw [hm, if_pos h]

theorem editorOpenLoopHeap_eq (rounds : Nat) :
    ∀ (fp : List Nat) (E : editorConfigs), fp.length < rounds →
      (∀ l ∈ fileLines fp, 11 ≤ (storedLine l).length ∧ (storedLine l).length < 2147483648) →
      editorOpenLoopHeap rounds fp E = some (editorOpenLoop rounds fp E) := by
  induction rounds with
  | zero => intro fp E h; omega
  | succ n ih =>
    intro fp E h hall
    cases fp with
    | nil => simp [editorOpenLoopHeap, editorOpenLoop, getline]
    | cons b bs =>
      have hl := nextLine_length b bs
      rw [fileLines_cons] at hall
      have h0 := hall _ (List.mem_cons_self _ _)
      rw [storedLine_length] at h0
      unfold editorOpenLoopHeap editorOpenLoop
      simp only [getline]
      have ha : editorAppendRowHeap (nextLine (b :: bs)).1
          (stripLen (nextLine (b :: bs)).1 (nextLine (b :: bs)).1.length) E =
          some (editorAppendRow (nextLine (b :: bs)).1
            (stripLen (nextLine (b :: bs)).1 (nextLine (b :: bs)).1.length) E) := by
        unfold editorAppendRowHeap rowStoreEnd rowBlockSize
        rw [intOfSsize_small _ h0.2]
        simp only [Int.ofNat_eq_coe, Int.toNat_ofNat]
        rw [if_pos (by omega)]
      rw [ha]
      simp only []
      exact ih _ _ (by simp only [List.length_cons] at h hl ⊢; omega)
        (fun l hlm => hall l (List.mem_cons_of_mem _ hlm))

/-- Apart from short and oversized lines: when every line of the file is stored
with at least 11 bytes and fewer than 2^31, no store of `editorOpen` falls
outside its block, and the rows are those of `editorOpen`. -/
theorem editorOpenHeap_eq (fp : List Nat) (E : editorConfigs)
    (hall : ∀ l ∈ fileLines fp,
      11 ≤ (storedLine l).length ∧ (storedLine l).length < 2147483648) :
    editorOpenHeap (some fp) E = some (editorOpen (some fp) E) := by
  simp only [editorOpenHeap, editorOpen]
  rw [editorOpenLoopHeap_eq (fp.length + 1) fp E (Nat.lt_succ_self _) hall]
  rfl

/-! ## Vertical moves (C6, C8, C9, C10) -/

theorem rowLen_range (E : editorConfigs) (i n : Int) (h : rowLen E i = some n) :
    0 ≤ i ∧ i < E.numRows := by
  unfold rowLen at h
  split_ifs at h with hc
  exact hc

theorem rowLen_some (E : editorConfigs) (i : Int) (h0 : 0 ≤ i) (h1 : i < E.numRows)
    (hl : E.numRows ≤ Int.ofNat E.rows.length) : ∃ n, rowLen E i = some n := by
  unfold rowLen
  rw [if_pos ⟨h0, h1⟩]
  have hlt : i.toNat < E.rows.length := by
    simp only [Int.ofNat_eq_coe] at hl
    omega
  rw [List.get?_eq_getElem?, List.getElem?_eq_getElem hlt]
  exact ⟨_, rfl⟩

theorem rowLen_congr (E E1 : editorConfigs) (i : Int) (hn : E1.numRows = E.numRows)
    (hr : E1.rows = E.rows) : rowLen E1 i = rowLen E i := by
  unfold rowLen
  rw [hn, hr]

theorem setColumn_eq (E : editorConfigs) (n : Int) :
    setColumn E n = { E with cx := if n < E.cx then n else min n E.colOff } := by
  unfold setColumn
  by_cases h : n < E.cx
  · simp only [h, if_true]
  · simp only [h, if_false]
    congr 1
    by_cases h2 : n < E.colOff
    · simp only [h2, if_true]; omega
    · simp only [h2, if_false]; omega

theorem editMoveCursor_down (E : editorConfigs) (n : Int) (hcy : 0 ≤ E.cy)
    (hn : rowLen E (E.rowOff + E.cy + 1) = some n) :
    editMoveCursor ARROW_DOWN E =
      ⟨[E.rowOff + E.cy + 1],
       Res.ok { E with
         cy := if E.cy < E.screenRows - 1 then E.cy + 1 else E.cy,
         rowOff := if E.cy < E.screenRows - 1 then E.rowOff else E.rowOff + 1,
         cx := if n < E.cx then n else min n E.colOff }⟩ := by
  have hr := rowLen_range E _ n hn
  have hlt : ¬ (E.rowOff + E.cy ≥ E.numRows) := by omega
  unfold editMoveCursor
  rw [if_neg (by decide), if_neg (by decide), if_pos rfl, if_neg hlt]
  by_cases hc : E.cy < E.screenRows - 1
  · simp only [hc, if_true]
    unfold readLineAndSetColumn
    have e : E.rowOff + (E.cy + 1) = E.rowOff + E.cy + 1 := by omega
    simp only [e]
    rw [show rowLen ({ E with cy := E.cy + 1 } : editorConfigs) (E.rowOff + E.cy + 1) = some n
      from (rowLen_congr E _ _ rfl rfl).trans hn]
    simp only [setColumn_eq]
  · have hro : E.rowOff < E.numRows := by omega
    simp only [hc, hro, if_true, if_false]
    unfold readLineAndSetColumn
    have e : E.rowOff + 1 + E.cy = E.rowOff + E.cy + 1 := by omega
    simp only [e]
    rw [show rowLen ({ E with rowOff := E.rowOff + 1 } : editorConfigs) (E.rowOff + E.cy + 1) = some n
      from (rowLen_congr E _ _ rfl rfl).trans hn]
    simp only [setColumn_eq]

theorem editMoveCursor_up (E : editorConfigs) (n : Int)
    (hn : rowLen E
      (if E.cy > 0 then E.rowOff + E.cy - 1
       else if E.rowOff > 0 then E.rowOff + E.cy - 1 else E.rowOff + E.cy) = some n) :
    editMoveCursor ARROW_UP E =
      ⟨[if E.cy > 0 then E.rowOff + E.cy - 1
        else if E.rowOff > 0 then E.rowOff + E.cy - 1 else E.rowOff + E.cy],
       Res.ok { E with
         cy := if E.cy > 0 then E.cy - 1 else E.cy,
         rowOff := if E.cy > 0 then E.rowOff else if E.rowOff > 0 then E.rowOff - 1 else E.rowOff,
         cx := if n < E.cx then n else min n E.colOff }⟩ := by
  unfold editMoveCursor
  rw [if_pos rfl]
  by_cases hc : E.cy > 0
  · simp only [hc, if_true] at hn ⊢
    unfold readLineAndSetColumn
    have e : E.rowOff + (E.cy - 1) = E.rowOff + E.cy - 1 := by omega
    simp only [e]
    rw [show rowLen ({ E with cy := E.cy - 1 } : editorConfigs) (E.rowOff + E.cy - 1) = some n
      from (rowLen_congr E _ _ rfl rfl).trans hn]
    simp only [setColumn_eq]
  · by_cases hro : E.rowOff > 0
    · simp only [hc, hro, if_true, if_false] at hn ⊢
      unfold readLineAndSetColumn
      have e : E.rowOff - 1 + E.cy = E.rowOff + E.cy - 1 := by omega
      simp only [e]
      rw [show rowLen ({ E with rowOff := E.rowOff - 1 } : editorConfigs) (E.rowOff + E.cy - 1) = some n
        from (rowLen_congr E _ _ rfl rfl).trans hn]
      simp only [setColumn_eq]
    · simp only [hc, hro, if_false] at hn ⊢
      unfold readLineAndSetColumn
      rw [hn]
      simp only [setColumn_eq]

/-- C6: in every state with `rowOff + cy >= numRows`, `ArrowDown` (applied by
`editMoveCursor`, also through the `switch` of `editorProcessKeyPress`) returns
the state unchanged in every field and accesses no line. -/
theorem arrowDown_at_end (E : editorConfigs) (h : E.rowOff + E.cy ≥ E.numRows) :
    editMoveCursor ARROW_DOWN E = ⟨[], Res.ok E⟩ ∧ processKey ARROW_DOWN E = ⟨[], Res.ok E⟩ := by
  have h1 : editMoveCursor ARROW_DOWN E = ⟨[], Res.ok E⟩ := by
    unfold editMoveCursor
    rw [if_neg (by decide), if_neg (by decide), if_pos rfl, if_pos h]
  refine ⟨h1, ?_⟩
  unfold processKey
  rw [if_neg (by decide), if_pos (Or.inr (Or.inl rfl))]
  exact h1

theorem arrowDown_at_end_witness :
    editMoveCursor ARROW_DOWN { oneLineEditor with cy := 1 } =
      ⟨[], Res.ok { oneLineEditor with cy := 1 }⟩ ∧
    processKey ARROW_DOWN { oneLineEditor with cy := 1 } =
      ⟨[], Res.ok { oneLineEditor with cy := 1 }⟩ :=
  arrowDown_at_end { oneLineEditor with cy := 1 } (by decide)

theorem pageLoop_down (t : Nat) :
    ∀ E : editorConfigs, viewportInv E → E.rowOff + E.cy + Int.ofNat t < E.numRows →
      E.numRows ≤ Int.ofNat E.rows.length →
      ∃ E', (pageLoop t ARROW_DOWN E).res = Res.ok E' ∧
        E'.cy = min (E.cy + Int.ofNat t) (E.screenRows - 1) ∧
        E'.rowOff + E'.cy = E.rowOff + E.cy + Int.ofNat t ∧
        E'.numRows = E.numRows ∧ E'.rows = E.rows ∧ E'.screenRows = E.screenRows ∧
        E'.screenCols = E.screenCols ∧ E'.colOff = E.colOff := by
  induction t with
  | zero =>
    intro E hi _ _
    unfold viewportInv at hi
    refine ⟨E, rfl, ?_, ?_, rfl, rfl, rfl, rfl, rfl⟩
    · simp only [Int.ofNat_eq_coe, Nat.cast_zero]; omega
    · simp only [Int.ofNat_eq_coe, Nat.cast_zero]; omega
  | succ t ih =>
    intro E hi hlt hl
    unfold viewportInv at hi
    simp only [Int.ofNat_eq_coe, Nat.cast_add, Nat.cast_one] at hlt ⊢
    obtain ⟨n, hn⟩ := rowLen_some E (E.rowOff + E.cy + 1) (by omega) (by omega) hl
    have hd := editMoveCursor_down E n hi.2.1 hn
    unfold pageLoop
    rw [hd]
    simp only []
    by_cases hc : E.cy < E.screenRows - 1
    · simp only [hc, if_true]
      obtain ⟨E', h1, h2, h3, h4, h5, h6, h7, h8⟩ :=
        ih { E with cy := E.cy + 1, cx := if n < E.cx then n else min n E.colOff }
          (by unfold viewportInv; simp only []; omega)
          (by simp only [Int.ofNat_eq_coe]; omega) hl
      simp only [Int.ofNat_eq_coe] at h2 h3
      exact ⟨E', h1, by rw [h2]; omega, by rw [h3]; omega, h4, h5, h6, h7, h8⟩
    · simp only [hc, if_false]
      obtain ⟨E', h1, h2, h3, h4, h5, h6, h7, h8⟩ :=
        ih { E with rowOff := E.rowOff + 1, cx := if n < E.cx then n else min n E.colOff }
          (by unfold viewportInv; simp only []; omega)
          (by simp only [Int.ofNat_eq_coe]; omega) hl
      simp only [Int.ofNat_eq_coe] at h2 h3
      exact ⟨E', h1, by rw [h2]; omega, by rw [h3]; omega, h4, h5, h6, h7, h8⟩

/-- C8, as stated, fails: on the buffer of 100 empty lines with `screenRows = 20`,
`rowOff = 0`, `cy = 0`, `PageDown` ends with `rowOff = 1` and `cy = 19`, not
with `rowOff = 20` and `cy = 0`. -/
theorem pageDown_hundred_not_twenty :
    (processKey PAGE_DOWN hundredLineEditor).res =
      Res.ok { hundredLineEditor with rowOff := 1, cy := 19 } ∧
    ¬ (∃ E', (processKey PAGE_DOWN hundredLineEditor).res = Res.ok E' ∧
        E'.rowOff = 20 ∧ E'.cy = 0) := by
  have h : (processKey PAGE_DOWN hundredLineEditor).res =
      Res.ok { hundredLineEditor with rowOff := 1, cy := 19 } := by rfl
  refine ⟨h, ?_⟩
  rintro ⟨E', h', h20, -⟩
  rw [h] at h'
  simp only [Res.ok.injEq] at h'
  subst h'
  simp at h20

/-- C8, amended: on every 100-line buffer with `screenRows = 20`, `rowOff = 0` and
`cy = 0`, `PageDown` (the `PAGE_DOWN` branch of `editorProcessKeyPress`) returns
and ends in `rowOff = 1`, `cy = 19`: the absolute line index is 20. -/
theorem pageDown_hundred_lines (E : editorConfigs) (hn : E.numRows = 100)
    (hl : E.rows.length = 100) (hs : E.screenRows = 20) (hr : E.rowOff = 0) (hc : E.cy = 0) :
    ∃ E', (processKey PAGE_DOWN E).res = Res.ok E' ∧ E'.rowOff = 1 ∧ E'.cy = 19 ∧
      E'.rowOff + E'.cy = 20 := by
  obtain ⟨E', h1, h2, h3, -⟩ := pageLoop_down 20 E
    (by unfold viewportInv; omega) (by simp only [Int.ofNat_eq_coe]; omega)
    (by simp only [Int.ofNat_eq_coe]; omega)
  refine ⟨E', ?_, ?_, ?_, ?_⟩
  · unfold processKey
    rw [if_neg (by decide), if_neg (by decide), if_pos (Or.inr rfl), hs, if_neg (by decide),
      if_neg (by decide)]
    exact h1
  · simp only [Int.ofNat_eq_coe] at h2 h3; omega
  · simp only [Int.ofNat_eq_coe] at h2 h3; omega
  · simp only [Int.ofNat_eq_coe] at h2 h3; omega

theorem pageDown_hundred_lines_witness :
    ∃ E', (processKey PAGE_DOWN hundredLineEditor).res = Res.ok E' ∧ E'.rowOff = 1 ∧
      E'.cy = 19 ∧ E'.rowOff + E'.cy = 20 :=
  pageDown_hundred_lines hundredLineEditor (by rfl) (by rfl) (by rfl) (by rfl) (by rfl)

/-- C9, evaluated on the code: with the cursor on the last line of a two-line
buffer the precondition `rowOff + cy < numRows`, `cy >= 0` holds and there is no
line below.  `ArrowDown` increments `cy` to index `numRows` and then accesses
`E.rows[numRows]` for the column, outside the buffer: the call does not return a
state with the row moved and the column set. -/
theorem arrowDown_last_line :
    twoLineEditor.rowOff + twoLineEditor.cy < twoLineEditor.numRows ∧ 0 ≤ twoLineEditor.cy ∧
    rowLen twoLineEditor (twoLineEditor.rowOff + twoLineEditor.cy + 1) = none ∧
    editMoveCursor ARROW_DOWN twoLineEditor = ⟨[2], Res.oob 2⟩ ∧
    ¬ ∃ E', (editMoveCursor ARROW_DOWN twoLineEditor).res = Res.ok E' := by
  have h : editMoveCursor ARROW_DOWN twoLineEditor = ⟨[2], Res.oob 2⟩ := by rfl
  refine ⟨by decide, by decide, by rfl, h, ?_⟩
  rintro ⟨E', h'⟩
  rw [h] at h'
  cases h'

/-- Apart from the out-of-range access: in every state with `cy >= 0` in which the
line below the cursor exists (`E.rows[rowOff + cy + 1]` is a loaded line, of
length `n`), `ArrowDown` accesses that line only, increments `cy` when
`cy < screenRows - 1` and otherwise increments `rowOff` (never both, so the absolute line index grows by exactly 1),
sets `cx` to `n` when `n` is less than the old `cx` and otherwise to
`min n colOff`, and changes no other field (`colOff` included). -/
theorem arrowDown_step (E : editorConfigs) (n : Int) (hcy : 0 ≤ E.cy)
    (hn : rowLen E (E.rowOff + E.cy + 1) = some n) :
    ∃ E', editMoveCursor ARROW_DOWN E = ⟨[E.rowOff + E.cy + 1], Res.ok E'⟩ ∧
      E' = { E with
        cy := if E.cy < E.screenRows - 1 then E.cy + 1 else E.cy,
        rowOff := if E.cy < E.screenRows - 1 then E.rowOff else E.rowOff + 1,
        cx := if n < E.cx then n else min n E.colOff } ∧
      E'.rowOff + E'.cy = E.rowOff + E.cy + 1 ∧
      E'.colOff = E.colOff ∧
      rowLen E' (E'.rowOff + E'.cy) = some n := by
  refine ⟨_, editMoveCursor_down E n hcy hn, rfl, ?_, rfl, ?_⟩
  · simp only []
    split_ifs <;> omega
  · refine (rowLen_congr E _ _ rfl rfl).trans ?_
    simp only []
    rw [← hn]
    congr 1
    split_ifs <;> omega

theorem arrowDown_step_witness :
    ∃ E', editMoveCursor ARROW_DOWN { twoLineEditor with cy := 0, cx := 2, colOff := 2 } =
        ⟨[1], Res.ok E'⟩ ∧
      E' = { twoLineEditor with cy := 1, cx := 1, colOff := 2 } ∧
      E'.rowOff + E'.cy = 1 ∧ E'.colOff = 2 ∧ rowLen E' (E'.rowOff + E'.cy) = some 1 :=
  arrowDown_step { twoLineEditor with cy := 0, cx := 2, colOff := 2 } 1 (by decide) (by rfl)

/-- C10, evaluated on the code: in the state of the editor started without a file
(`cy = 0`, `rowOff = 0`, no lines) `ArrowUp` changes neither `cy` nor `rowOff`
and then accesses `E.rows[0]` for the column, outside the buffer: the call
does not return a state. -/
theorem arrowUp_empty_buffer :
    rowLen emptyEditor (emptyEditor.rowOff + emptyEditor.cy) = none ∧
    editMoveCursor ARROW_UP emptyEditor = ⟨[0], Res.oob 0⟩ ∧
    ¬ ∃ E', (editMoveCursor ARROW_UP emptyEditor).res = Res.ok E' := by
  have h : editMoveCursor ARROW_UP emptyEditor = ⟨[0], Res.oob 0⟩ := by rfl
  refine ⟨by rfl, h, ?_⟩
  rintro ⟨E', h'⟩
  rw [h] at h'
  cases h'

/-- Apart from the out-of-range access: in every state in which the line that
`ArrowUp` moves to exists (of length `n`), `ArrowUp` accesses that line only, decrements `cy` when `cy > 0`,
otherwise decrements `rowOff` when `rowOff > 0`, otherwise changes neither, sets
`cx` to `n` when `n` is less than the old `cx` and otherwise to `min n colOff`,
and changes no other field (`colOff` included). -/
theorem arrowUp_step (E : editorConfigs) (n : Int)
    (hn : rowLen E
      (if E.cy > 0 then E.rowOff + E.cy - 1
       else if E.rowOff > 0 then E.rowOff + E.cy - 1 else E.rowOff + E.cy) = some n) :
    ∃ E', editMoveCursor ARROW_UP E =
        ⟨[if E.cy > 0 then E.rowOff + E.cy - 1
          else if E.rowOff > 0 then E.rowOff + E.cy - 1 else E.rowOff + E.cy], Res.ok E'⟩ ∧
      E' = { E with
        cy := if E.cy > 0 then E.cy - 1 else E.cy,
        rowOff := if E.cy > 0 then E.rowOff
          else if E.rowOff > 0 then E.rowOff - 1 else E.rowOff,
        cx := if n < E.cx then n else min n E.colOff } ∧
      E'.colOff = E.colOff ∧
      rowLen E' (E'.rowOff + E'.cy) = some n := by
  refine ⟨_, editMoveCursor_up E n hn, rfl, rfl, ?_⟩
  refine (rowLen_congr E _ _ rfl rfl).trans ?_
  simp only []
  rw [← hn]
  congr 1
  split_ifs <;> omega

theorem arrowUp_step_witness :
    ∃ E', editMoveCursor ARROW_UP { twoLineEditor with cx := 1, colOff := 1 } =
        ⟨[0], Res.ok E'⟩ ∧
      E' = { twoLineEditor with cy := 0, cx := 1, colOff := 1 } ∧
      E'.colOff = 1 ∧ rowLen E' (E'.rowOff + E'.cy) = some 2 :=
  arrowUp_step { twoLineEditor with cx := 1, colOff := 1 } 2 (by rfl)

/-! ## The column bound (C7) -/

/-- C7, evaluated on the code: the one-line buffer `hello` with the cursor on the
line in column 3 satisfies the viewport invariant, `0 <= colOff` and
`0 <= cx <= max(5, screenCols - 1)`; `ArrowDown` and `PageDown` move the cursor
below the last line and take the new column from `E.rows[1]`, which does not
exist, so no bounded column results. -/
theorem cursorCol_from_missing_line :
    viewportInv midLineEditor ∧ 0 ≤ midLineEditor.colOff ∧
    rowLen midLineEditor (midLineEditor.rowOff + midLineEditor.cy) = some 5 ∧
    0 ≤ midLineEditor.cx ∧ midLineEditor.cx ≤ max 5 (midLineEditor.screenCols - 1) ∧
    processKey ARROW_DOWN midLineEditor = ⟨[1], Res.oob 1⟩ ∧
    processKey PAGE_DOWN midLineEditor = ⟨[1], Res.oob 1⟩ := by
  refine ⟨by decide, by decide, by rfl, by decide, by decide, by rfl, by rfl⟩

theorem rowLen_nonneg (E : editorConfigs) (i n : Int) (hr : ∀ r ∈ E.rows, 0 ≤ r.len)
    (h : rowLen E i = some n) : 0 ≤ n := by
  unfold rowLen at h
  split_ifs at h
  rw [List.get?_eq_getElem?] at h
  cases hg : E.rows[i.toNat]? with
  | none => rw [hg] at h; simp at h
  | some r =>
    rw [hg] at h
    simp only [Option.map_some', Option.some.injEq] at h
    subst h
    exact hr r (List.getElem?_mem hg)

theorem lineLenAt_congr (E E1 : editorConfigs) (hn : E1.numRows = E.numRows)
    (hr : E1.rows = E.rows) (hro : E1.rowOff = E.rowOff) (hcy : E1.cy = E.cy) :
    lineLenAt E1 = lineLenAt E := by
  unfold lineLenAt
  rw [rowLen_congr E E1 _ hn hr, hro, hcy]

theorem readLineAndSetColumn_colBound (E E' : editorConfigs)
    (hr : ∀ r ∈ E.rows, 0 ≤ r.len) (hc : 0 ≤ E.colOff)
    (h : (readLineAndSetColumn E).res = Res.ok E') : colBound E' := by
  unfold readLineAndSetColumn at h
  cases hn : rowLen E (E.rowOff + E.cy) with
  | none => rw [hn] at h; simp at h
  | some n =>
    rw [hn] at h
    simp only [Res.ok.injEq] at h
    subst h
    have h0 := rowLen_nonneg E _ n hr hn
    have hl : lineLenAt (setColumn E n) = n := by
      rw [lineLenAt_congr E _ (setColumn_frame E n).2.2.1 (setColumn_frame E n).2.2.2.1
        (setColumn_frame E n).2.1 (setColumn_frame E n).1]
      unfold lineLenAt
      rw [hn]
      rfl
    unfold colBound
    rw [hl, (setColumn_frame E n).2.2.2.2.2.1, setColumn_eq]
    simp only []
    split_ifs <;> omega

/-- Apart from the out-of-range access: whenever `editMoveCursor` returns for a key
other than `END_KEY`, from a state with non-negative line lengths, `0 <= colOff`
and the column bound, the new state has the column bound again. -/
theorem editMoveCursor_colBound (key : Int) (E E' : editorConfigs) (hk : key ≠ END_KEY)
    (hr : ∀ r ∈ E.rows, 0 ≤ r.len) (hc : 0 ≤ E.colOff) (hb : colBound E)
    (h : (editMoveCursor key E).res = Res.ok E') :
    colBound E' ∧ 0 ≤ E'.colOff ∧ E'.rows = E.rows := by
  unfold editMoveCursor at h
  by_cases k1 : key = ARROW_UP
  · rw [if_pos k1] at h
    have hf := readLineAndSetColumn_frame _ _ h
    refine ⟨readLineAndSetColumn_colBound _ E' ?_ ?_ h, ?_, ?_⟩
    · split_ifs <;> exact hr
    · split_ifs <;> exact hc
    · rw [hf.2.2.2.2.2.2]; split_ifs <;> exact hc
    · rw [hf.2.2.2.1]; split_ifs <;> rfl
  rw [if_neg k1] at h
  by_cases k2 : key = ARROW_LEFT
  · rw [if_pos k2] at h
    unfold colBound at hb ⊢
    split_ifs at h with hx
    · obtain rfl : _ = E' := by simpa using h
      have hl : lineLenAt { E with cx := E.cx - 1, colOff := E.cx - 1 } = lineLenAt E :=
        lineLenAt_congr E _ rfl rfl rfl rfl
      rw [hl]
      simp only []
      refine ⟨⟨?_, ?_⟩, ?_, trivial⟩ <;> omega
    · obtain rfl : E = E' := by simpa using h
      exact ⟨hb, hc, rfl⟩
  rw [if_neg k2] at h
  by_cases k3 : key = ARROW_DOWN
  · rw [if_pos k3] at h
    split_ifs at h with he hcy hro
    · obtain rfl : E = E' := by simpa using h
      exact ⟨hb, hc, rfl⟩
    all_goals
      simp only [] at h
      have hf := readLineAndSetColumn_frame _ _ h
      exact ⟨readLineAndSetColumn_colBound _ E' (by exact hr) (by exact hc) h,
        by rw [hf.2.2.2.2.2.2]; exact hc, by rw [hf.2.2.2.1]⟩
  rw [if_neg k3] at h
  by_cases k4 : key = ARROW_RIGHT
  · rw [if_pos k4] at h
    unfold colBound at hb ⊢
    split_ifs at h with hx
    · cases hn : rowLen E (E.rowOff + E.cy) with
      | none => rw [hn] at h; simp at h
      | some n =>
        rw [hn] at h
        simp only [] at h
        split_ifs at h with hlt
        · obtain rfl : _ = E' := by simpa using h
          have hl : lineLenAt { E with cx := E.cx + 1, colOff := E.cx + 1 } = n := by
            refine (lineLenAt_congr E _ rfl rfl rfl rfl).trans ?_
            unfold lineLenAt
            rw [hn]
            rfl
          rw [hl]
          simp only []
          refine ⟨⟨?_, ?_⟩, ?_, trivial⟩ <;> omega
        · obtain rfl : E = E' := by simpa using h
          exact ⟨hb, hc, rfl⟩
    · obtain rfl : E = E' := by simpa using h
      exact ⟨hb, hc, rfl⟩
  rw [if_neg k4] at h
  by_cases k5 : key = HOME_KEY
  · rw [if_pos k5] at h
    obtain rfl : _ = E' := by simpa using h
    unfold colBound at hb ⊢
    have hl : lineLenAt { E with cx := 0 } = lineLenAt E := lineLenAt_congr E _ rfl rfl rfl rfl
    rw [hl]
    simp only []
    refine ⟨⟨?_, ?_⟩, ?_, trivial⟩ <;> omega
  rw [if_neg k5, if_neg hk] at h
  simp at h

theorem pageLoop_colBound (times : Nat) (key : Int) (hk : key ≠ END_KEY) :
    ∀ E E' : editorConfigs, (∀ r ∈ E.rows, 0 ≤ r.len) → 0 ≤ E.colOff → colBound E →
      (pageLoop times key E).res = Res.ok E' →
      colBound E' ∧ 0 ≤ E'.colOff ∧ E'.rows = E.rows := by
  induction times with
  | zero =>
    intro E E' _ hc hb h
    obtain rfl : E = E' := by simpa [pageLoop] using h
    exact ⟨hb, hc, rfl⟩
  | succ t ih =>
    intro E E' hr hc hb h
    unfold pageLoop at h
    cases hm : editMoveCursor key E with
    | mk rs r =>
      cases r with
      | ok E1 =>
        rw [hm] at h
        simp only [] at h
        obtain ⟨b1, c1, r1⟩ := editMoveCursor_colBound key E E1 hk hr hc hb (by rw [hm])
        obtain ⟨b2, c2, r2⟩ := ih E1 E' (by rw [r1]; exact hr) c1 b1 h
        exact ⟨b2, c2, r2.trans r1⟩
      | oob i => rw [hm] at h; simp at h
      | died m => rw [hm] at h; simp at h
      | quit => rw [hm] at h; simp at h
      | blocked => rw [hm] at h; simp at h

/-- Apart from the out-of-range access: whenever the `switch` of
`editorProcessKeyPress` returns for a key other than `END_KEY`, the column bound
is kept. -/
theorem processKey_colBound (c : Int) (E E' : editorConfigs) (hk : c ≠ END_KEY)
    (hr : ∀ r ∈ E.rows, 0 ≤ r.len) (hc : 0 ≤ E.colOff) (hb : colBound E)
    (h : (processKey c E).res = Res.ok E') : colBound E' := by
  unfold processKey at h
  split_ifs at h
  all_goals first
    | exact (editMoveCursor_colBound c E E' hk hr hc hb h).1
    | exact (pageLoop_colBound _ _ (by decide) E E' hr hc hb h).1
    | (obtain rfl : E = E' := by simpa using h
       exact hb)

/-! ## Horizontal moves and the other keys (C11, C12, C16) -/

theorem editMoveCursor_left (E : editorConfigs) :
    editMoveCursor ARROW_LEFT E =
      ⟨[], Res.ok (if E.cx > 0 then { E with cx := E.cx - 1, colOff := E.cx - 1 } else E)⟩ := by
  unfold editMoveCursor
  rw [if_neg (by decide), if_pos rfl]
  split_ifs <;> rfl

theorem editMoveCursor_right (E : editorConfigs) (n : Int)
    (hn : E.cx < E.screenCols - 1 → rowLen E (E.rowOff + E.cy) = some n) :
    editMoveCursor ARROW_RIGHT E =
      ⟨if E.cx < E.screenCols - 1 then [E.rowOff + E.cy] else [],
       Res.ok (if E.cx < E.screenCols - 1 ∧ E.cx < n
         then { E with cx := E.cx + 1, colOff := E.cx + 1 } else E)⟩ := by
  unfold editMoveCursor
  rw [if_neg (by decide), if_neg (by decide), if_neg (by decide), if_pos rfl]
  by_cases hx : E.cx < E.screenCols - 1
  · rw [if_pos hx, hn hx]
    simp only [hx, if_true, true_and]
    split_ifs <;> rfl
  · rw [if_neg hx]
    simp only [hx, if_false, false_and]

/-- C11, evaluated on the code: in the state of the editor started without a file
`cx = 0 < screenCols - 1` and there is no current line, so the condition of
`ArrowRight` is false and the key should change nothing.  The code accesses
`E.rows[0]` to test it, outside the buffer: the call does not return a state. -/
theorem arrowRight_empty_buffer :
    emptyEditor.cx < emptyEditor.screenCols - 1 ∧
    rowLen emptyEditor (emptyEditor.rowOff + emptyEditor.cy) = none ∧
    editMoveCursor ARROW_RIGHT emptyEditor = ⟨[0], Res.oob 0⟩ ∧
    ¬ ∃ E', (editMoveCursor ARROW_RIGHT emptyEditor).res = Res.ok E' := by
  have h : editMoveCursor ARROW_RIGHT emptyEditor = ⟨[0], Res.oob 0⟩ := by rfl
  refine ⟨by decide, by rfl, h, ?_⟩
  rintro ⟨E', h'⟩
  rw [h] at h'
  cases h'

/-- Apart from the out-of-range access: in every state in which the current line
exists (of length `n`) whenever `cx < screenCols - 1`, `ArrowRight` increments
`cx` and sets `colOff` to the new `cx` exactly when `cx < screenCols - 1` and `cx < n`, and otherwise
returns the state unchanged; it accesses the current line only, and only when
`cx < screenCols - 1`.  In every state `ArrowLeft` decrements `cx` and sets
`colOff` to the new `cx` exactly when `cx > 0`, and otherwise returns the state
unchanged, accessing no line.  Neither key changes `cy` or `rowOff`. -/
theorem arrowRight_arrowLeft_step (E : editorConfigs) (n : Int)
    (hn : E.cx < E.screenCols - 1 → rowLen E (E.rowOff + E.cy) = some n) :
    ∃ R L,
      editMoveCursor ARROW_RIGHT E =
        ⟨if E.cx < E.screenCols - 1 then [E.rowOff + E.cy] else [], Res.ok R⟩ ∧
      R = (if E.cx < E.screenCols - 1 ∧ E.cx < n
        then { E with cx := E.cx + 1, colOff := E.cx + 1 } else E) ∧
      editMoveCursor ARROW_LEFT E = ⟨[], Res.ok L⟩ ∧
      L = (if E.cx > 0 then { E with cx := E.cx - 1, colOff := E.cx - 1 } else E) ∧
      R.cy = E.cy ∧ R.rowOff = E.rowOff ∧ L.cy = E.cy ∧ L.rowOff = E.rowOff := by
  refine ⟨_, _, editMoveCursor_right E n hn, rfl, editMoveCursor_left E, rfl, ?_, ?_, ?_, ?_⟩ <;>
    split_ifs <;> rfl

theorem arrowRight_arrowLeft_step_witness :
    ∃ R L,
      editMoveCursor ARROW_RIGHT midLineEditor = ⟨[0], Res.ok R⟩ ∧
      R = { midLineEditor with cx := 4, colOff := 4 } ∧
      editMoveCursor ARROW_LEFT midLineEditor = ⟨[], Res.ok L⟩ ∧
      L = { midLineEditor with cx := 2, colOff := 2 } ∧
      R.cy = 0 ∧ R.rowOff = 0 ∧ L.cy = 0 ∧ L.rowOff = 0 :=
  arrowRight_arrowLeft_step midLineEditor 5 (fun _ => by rfl)

/-- C12: in every state, whatever the buffer, `End` sets `cx` to `screenCols - 1`
and `Home` sets `cx` to 0; both change no other field (`cy`, `rowOff` and
`colOff` included) and access no line, also through the `switch` of
`editorProcessKeyPress`.  On the one-line buffer `hello` (length 5) with 80
columns `End` leaves the cursor in column 79, past the end of the line. -/
theorem end_home_step (E : editorConfigs) :
    editMoveCursor END_KEY E = ⟨[], Res.ok { E with cx := E.screenCols - 1 }⟩ ∧
    editMoveCursor HOME_KEY E = ⟨[], Res.ok { E with cx := 0 }⟩ ∧
    processKey END_KEY E = ⟨[], Res.ok { E with cx := E.screenCols - 1 }⟩ ∧
    processKey HOME_KEY E = ⟨[], Res.ok { E with cx := 0 }⟩ ∧
    rowLen oneLineEditor (oneLineEditor.rowOff + oneLineEditor.cy) = some 5 ∧
    processKey END_KEY oneLineEditor = ⟨[], Res.ok { oneLineEditor with cx := 79 }⟩ := by
  have he : editMoveCursor END_KEY E = ⟨[], Res.ok { E with cx := E.screenCols - 1 }⟩ := by
    unfold editMoveCursor
    rw [if_neg (by decide), if_neg (by decide), if_neg (by decide), if_neg (by decide),
      if_neg (by decide), if_pos rfl]
  have hh : editMoveCursor HOME_KEY E = ⟨[], Res.ok { E with cx := 0 }⟩ := by
    unfold editMoveCursor
    rw [if_neg (by decide), if_neg (by decide), if_neg (by decide), if_neg (by decide),
      if_pos rfl]
  refine ⟨he, hh, ?_, ?_, by rfl, by rfl⟩
  · unfold processKey
    rw [if_neg (by decide), if_pos (by decide)]
    exact he
  · unfold processKey
    rw [if_neg (by decide), if_pos (by decide)]
    exact hh

/-- C16: for every key that is neither the quit key `CTRL_KEY('q')` nor one of
`ARROW_UP`, `ARROW_DOWN`, `ARROW_LEFT`, `ARROW_RIGHT`, `HOME_KEY`, `END_KEY`,
`PAGE_UP`, `PAGE_DOWN`, the `switch` of `editorProcessKeyPress` returns the state
unchanged in every field and accesses no line; so does `editorProcessKeyPress`
whenever `editorReadKey` returns such a key. -/
theorem other_keys_noop (c : Int) (E : editorConfigs) (hq : c ≠ CTRL_KEY 113)
    (hk : c ∉ [ARROW_UP, ARROW_DOWN, ARROW_LEFT, ARROW_RIGHT, HOME_KEY, END_KEY,
      PAGE_UP, PAGE_DOWN]) :
    processKey c E = ⟨[], Res.ok E⟩ ∧
    ∀ w w1, editorReadKey w = Res.ok (c, w1) →
      editorProcessKeyPress w E = ⟨[], Res.ok (w1, E)⟩ := by
  simp only [List.mem_cons, List.mem_singleton, List.not_mem_nil, or_false, not_or] at hk
  obtain ⟨k1, k2, k3, k4, k5, k6, k7, k8⟩ := hk
  have h : processKey c E = ⟨[], Res.ok E⟩ := by
    unfold processKey
    rw [if_neg hq, if_neg (by simp [k1, k2, k3, k4, k5, k6]), if_neg (by simp [k7, k8])]
  refine ⟨h, ?_⟩
  intro w w1 hw
  unfold editorProcessKeyPress
  rw [hw]
  simp only [h]

theorem other_keys_noop_witness :
    processKey DEL_KEY oneLineEditor = ⟨[], Res.ok oneLineEditor⟩ ∧
    ∀ w w1, editorReadKey w = Res.ok (DEL_KEY, w1) →
      editorProcessKeyPress w oneLineEditor = ⟨[], Res.ok (w1, oneLineEditor)⟩ :=
  other_keys_noop DEL_KEY oneLineEditor (by decide) (by decide)

/-! ## The descriptor of the escape bytes (C17) -/

/-- C17, evaluated on the code: with descriptor 1 not open on the input terminal,
the bytes `ESC [ A` typed on standard input decode to the escape key and `[ A`
stays unread on standard input when descriptor 1 delivers nothing; when descriptor
1 delivers `[ B`, these two bytes are consumed from descriptor 1 and the key is
`ARROW_DOWN`; the fourth byte of `ESC [ 5 ~` is taken from standard input.  Only
when both descriptors are the same terminal does `ESC [ A` decode to `ARROW_UP`. -/
theorem escape_bytes_from_descriptor_one :
    editorReadKey ⟨[ReadResult.byte 27, ReadResult.byte 91, ReadResult.byte 65], [], false⟩ =
      Res.ok (ESC, ⟨[ReadResult.byte 91, ReadResult.byte 65], [], false⟩) ∧
    editorReadKey ⟨[ReadResult.byte 27, ReadResult.byte 91, ReadResult.byte 65],
        [ReadResult.byte 91, ReadResult.byte 66], false⟩ =
      Res.ok (ARROW_DOWN, ⟨[ReadResult.byte 91, ReadResult.byte 65], [], false⟩) ∧
    editorReadKey ⟨[ReadResult.byte 27, ReadResult.byte 126],
        [ReadResult.byte 91, ReadResult.byte 53], false⟩ =
      Res.ok (PAGE_UP, ⟨[], [], false⟩) ∧
    editorReadKey ⟨[ReadResult.byte 27, ReadResult.byte 91, ReadResult.byte 65], [], true⟩ =
      Res.ok (ARROW_UP, ⟨[], [], true⟩) := by
  refine ⟨by rfl, by rfl, by rfl, by rfl⟩

/-! ## Paging and the sticky column (C18, C19) -/

theorem pageLoop_up (t : Nat) :
    ∀ E : editorConfigs, viewportInv E → 1 ≤ E.numRows →
      E.numRows ≤ Int.ofNat E.rows.length →
      ∃ E', (pageLoop t ARROW_UP E).res = Res.ok E' ∧
        E'.rowOff + E'.cy = max (E.rowOff + E.cy - Int.ofNat t) 0 ∧
        viewportInv E' ∧ E'.numRows = E.numRows ∧ E'.rows = E.rows ∧
        E'.screenRows = E.screenRows ∧ E'.screenCols = E.screenCols ∧
        E'.colOff = E.colOff := by
  induction t with
  | zero =>
    intro E hi _ _
    refine ⟨E, rfl, ?_, hi, rfl, rfl, rfl, rfl, rfl⟩
    unfold viewportInv at hi
    simp only [Int.ofNat_eq_coe, Nat.cast_zero]
    omega
  | succ t ih =>
    intro E hi h1 hl
    have hi' := hi
    unfold viewportInv at hi'
    simp only [Int.ofNat_eq_coe, Nat.cast_add, Nat.cast_one]
    obtain ⟨n, hn⟩ := rowLen_some E
      (if E.cy > 0 then E.rowOff + E.cy - 1
       else if E.rowOff > 0 then E.rowOff + E.cy - 1 else E.rowOff + E.cy)
      (by split_ifs <;> omega) (by split_ifs <;> omega) hl
    have hu := editMoveCursor_up E n hn
    unfold pageLoop
    rw [hu]
    simp only []
    obtain ⟨E', e1, e2, e3, e4, e5, e6, e7, e8⟩ :=
      ih { E with
          cy := if E.cy > 0 then E.cy - 1 else E.cy,
          rowOff := if E.cy > 0 then E.rowOff
            else if E.rowOff > 0 then E.rowOff - 1 else E.rowOff,
          cx := if n < E.cx then n else min n E.colOff }
        (by unfold viewportInv; simp only []; split_ifs <;> omega) h1 hl
    simp only [Int.ofNat_eq_coe] at e2
    refine ⟨E', e1, ?_, e3, e4, e5, e6, e7, e8⟩
    rw [e2]
    split_ifs <;> omega

/-- In range, `PageDown` moves the absolute line index by `screenRows`: when the
line `rowOff + cy + screenRows` exists. -/
theorem processKey_pageDown (E : editorConfigs) (hi : viewportInv E)
    (hlt : E.rowOff + E.cy + E.screenRows < E.numRows)
    (hl : E.numRows ≤ Int.ofNat E.rows.length) :
    ∃ E', (processKey PAGE_DOWN E).res = Res.ok E' ∧
      E'.rowOff + E'.cy = E.rowOff + E.cy + E.screenRows := by
  have hs : 0 ≤ E.screenRows := by unfold viewportInv at hi; omega
  obtain ⟨E', h1, -, h3, -⟩ := pageLoop_down E.screenRows.toNat E hi
    (by simp only [Int.ofNat_eq_coe, Int.toNat_of_nonneg hs]; exact hlt) hl
  refine ⟨E', ?_, ?_⟩
  · unfold processKey
    rw [if_neg (by decide), if_neg (by decide), if_pos (Or.inr rfl), if_neg (by omega),
      if_neg (by decide)]
    exact h1
  · simp only [Int.ofNat_eq_coe, Int.toNat_of_nonneg hs] at h3
    exact h3

/-- On a buffer with at least one line, `PageUp` moves the absolute line index by
`screenRows`, clamped at 0. -/
theorem processKey_pageUp (E : editorConfigs) (hi : viewportInv E) (h1 : 1 ≤ E.numRows)
    (hl : E.numRows ≤ Int.ofNat E.rows.length) :
    ∃ E', (processKey PAGE_UP E).res = Res.ok E' ∧
      E'.rowOff + E'.cy = max (E.rowOff + E.cy - E.screenRows) 0 := by
  have hs : 0 ≤ E.screenRows := by unfold viewportInv at hi; omega
  obtain ⟨E', e1, e2, -⟩ := pageLoop_up E.screenRows.toNat E hi h1 hl
  refine ⟨E', ?_, ?_⟩
  · unfold processKey
    rw [if_neg (by decide), if_neg (by decide), if_pos (Or.inl rfl), if_neg (by omega),
      if_pos rfl]
    exact e1
  · simp only [Int.ofNat_eq_coe, Int.toNat_of_nonneg hs] at e2
    exact e2

/-- C18, evaluated on the code: both states satisfy the viewport invariant.  With
the cursor on the last line of the two-line buffer `PageDown` should end on
index `min(1 + 24, 2) = 2`; the code moves there and accesses `E.rows[2]`.  On
the empty buffer `PageUp` should end on index `max(0 - 24, 0) = 0`; the code
accesses `E.rows[0]`.  Neither call returns a state. -/
theorem paging_out_of_range :
    viewportInv twoLineEditor ∧
    processKey PAGE_DOWN twoLineEditor = ⟨[2], Res.oob 2⟩ ∧
    viewportInv emptyEditor ∧
    processKey PAGE_UP emptyEditor = ⟨[0], Res.oob 0⟩ := by
  refine ⟨by decide, by rfl, by decide, by rfl⟩

/-- C19: in every state that satisfies the viewport invariant, with
`cx = colOff <= n0` for the length `n0` of the current line and with a line below
the cursor (of any length `n1`), `ArrowDown` followed by `ArrowUp` returns, and
the absolute line index `rowOff + cy`, `cx` and `colOff` are as before. -/
theorem sticky_column_round_trip (E : editorConfigs) (n0 n1 : Int) (hi : viewportInv E)
    (h0 : rowLen E (E.rowOff + E.cy) = some n0)
    (h1 : rowLen E (E.rowOff + E.cy + 1) = some n1)
    (hc : E.cx = E.colOff) (hle : E.colOff ≤ n0) :
    ∃ E1 E2,
      editMoveCursor ARROW_DOWN E = ⟨[E.rowOff + E.cy + 1], Res.ok E1⟩ ∧
      editMoveCursor ARROW_UP E1 = ⟨[E.rowOff + E.cy], Res.ok E2⟩ ∧
      E2.rowOff + E2.cy = E.rowOff + E.cy ∧ E2.cx = E.cx ∧ E2.colOff = E.colOff := by
  unfold viewportInv at hi
  have hd := editMoveCursor_down E n1 hi.2.1 h1
  generalize hE1 : ({ E with
      cy := if E.cy < E.screenRows - 1 then E.cy + 1 else E.cy,
      rowOff := if E.cy < E.screenRows - 1 then E.rowOff else E.rowOff + 1,
      cx := if n1 < E.cx then n1 else min n1 E.colOff } : editorConfigs) = E1 at hd
  have fcy : E1.cy = if E.cy < E.screenRows - 1 then E.cy + 1 else E.cy := by rw [← hE1]
  have fro : E1.rowOff = if E.cy < E.screenRows - 1 then E.rowOff else E.rowOff + 1 := by
    rw [← hE1]
  have fcx : E1.cx = if n1 < E.cx then n1 else min n1 E.colOff := by rw [← hE1]
  have fco : E1.colOff = E.colOff := by rw [← hE1]
  have fnr : E1.numRows = E.numRows := by rw [← hE1]
  have frs : E1.rows = E.rows := by rw [← hE1]
  have hidx : (if E1.cy > 0 then E1.rowOff + E1.cy - 1
      else if E1.rowOff > 0 then E1.rowOff + E1.cy - 1 else E1.rowOff + E1.cy) =
      E.rowOff + E.cy := by
    rw [fcy, fro]
    split_ifs <;> omega
  have hu := editMoveCursor_up E1 n0 (by rw [hidx]; exact (rowLen_congr E E1 _ fnr frs).trans h0)
  rw [hidx] at hu
  refine ⟨E1, _, hd, hu, ?_, ?_, ?_⟩
  · simp only []
    rw [fcy, fro]
    split_ifs <;> omega
  · simp only []
    rw [fcx, fco]
    split_ifs <;> omega
  · exact fco

theorem sticky_column_round_trip_witness :
    ∃ E1 E2,
      editMoveCursor ARROW_DOWN { twoLineEditor with cy := 0, cx := 2, colOff := 2 } =
        ⟨[1], Res.ok E1⟩ ∧
      editMoveCursor ARROW_UP E1 = ⟨[0], Res.ok E2⟩ ∧
      E2.rowOff + E2.cy = 0 ∧ E2.cx = 2 ∧ E2.colOff = 2 :=
  sticky_column_round_trip { twoLineEditor with cy := 0, cx := 2, colOff := 2 } 2 1
    (by decide) (by rfl) (by rfl) (by rfl) (by decide)

/-! ## Rendering (C13, C14, C15, C20) -/

theorem abAppend_ok (ab s : List Nat) (len : Int) (h0 : 0 ≤ len)
    (h1 : len ≤ Int.ofNat s.length) : abAppend ab s len = Draw.ok (ab ++ s.take len.toNat) := by
  unfold abAppend
  rw [if_pos ⟨h0, h1⟩]

theorem padLoop_eq (padding : Nat) :
    ∀ ab : List Nat, padLoop padding ab = Draw.ok (ab ++ List.replicate padding 32) := by
  induction padding with
  | zero => intro ab; simp [padLoop]
  | succ p ih =>
    intro ab
    unfold padLoop
    rw [abAppend_ok ab [32] 1 (by decide) (by decide)]
    simp only [Draw.bind]
    rw [ih]
    simp [List.replicate_succ]

theorem welcome_length : welcome.length = 29 := by rfl

theorem printWelcome_eq (E : editorConfigs) (ab : List Nat) (hsc : 0 ≤ E.screenCols) :
    printWelcome E ab = Draw.ok (ab ++ bannerText E) := by
  unfold printWelcome bannerText
  simp only [welcome_length, Int.ofNat_eq_coe, Nat.cast_ofNat]
  by_cases h : (29 : Int) > E.screenCols
  · rw [if_pos h, if_pos (by omega)]
    exact abAppend_ok ab welcome E.screenCols hsc
      (by simp only [welcome_length, Int.ofNat_eq_coe, Nat.cast_ofNat]; omega)
  · rw [if_neg h, if_neg (by omega), padLoop_eq]
    simp only [Draw.bind]
    rw [abAppend_ok _ welcome 29 (by decide) (by rw [welcome_length]; decide)]
    rw [Int.tdiv_eq_ediv (by omega) (by decide)]
    have ht : List.take (29 : Int).toNat welcome = welcome := by rfl
    rw [ht, List.append_assoc]

theorem bind_ok (ab : List Nat) (f : List Nat → Draw) : (Draw.ok ab).bind f = f ab := rfl

theorem rowAt_of_bufferOK (E : editorConfigs) (i : Int) (hb : bufferOK E) (h0 : 0 ≤ i)
    (h1 : i < E.numRows) :
    ∃ r, E.rows.get? i.toNat = some r ∧ rowAt E i = some r ∧
      r.len = Int.ofNat r.line.length := by
  obtain ⟨hn, hr⟩ := hb
  have hlt : i.toNat < E.rows.length := by
    simp only [Int.ofNat_eq_coe] at hn
    omega
  have hg : E.rows.get? i.toNat = some (E.rows.get ⟨i.toNat, hlt⟩) := List.get?_eq_get hlt
  refine ⟨_, hg, ?_, hr _ (List.get_mem _ _ _)⟩
  unfold rowAt
  rw [if_pos ⟨h0, h1⟩, hg]

theorem rowEnd_eq (E : editorConfigs) (y : Int) (ab2 : List Nat) :
    ((abAppend ab2 [27, 91, 75] 3).bind fun ab3 =>
      if y < E.screenRows - 1 then abAppend ab3 [13, 10] 2 else Draw.ok ab3) =
    Draw.ok (ab2 ++ [27, 91, 75] ++ (if y < E.screenRows - 1 then [13, 10] else [])) := by
  rw [abAppend_ok ab2 [27, 91, 75] 3 (by decide) (by decide)]
  simp only [Draw.bind]
  split_ifs
  · rw [abAppend_ok _ [13, 10] 2 (by decide) (by decide)]
    rfl
  · simp

theorem drawRow_eq (E : editorConfigs) (y : Nat) (ab : List Nat) (hb : bufferOK E)
    (hro : 0 ≤ E.rowOff) (hsc : 0 ≤ E.screenCols) (hsr : 0 ≤ E.screenRows) :
    drawRow E (Int.ofNat y) ab = Draw.ok (ab ++ rowSegment E y) := by
  unfold drawRow rowSegment rowContent
  simp only [Int.ofNat_eq_coe]
  have hcomm : (y : Int) + E.rowOff = E.rowOff + (y : Int) := by omega
  rw [hcomm]
  by_cases hf : E.rowOff + (y : Int) < E.numRows
  · obtain ⟨r, hg, ha, hl⟩ := rowAt_of_bufferOK E (E.rowOff + (y : Int)) hb (by omega) hf
    simp only [Int.ofNat_eq_coe] at hl
    rw [if_pos hf, if_pos hf, ha, hg]
    simp only []
    rw [abAppend_ok ab r.line _ (by split_ifs <;> omega)
      (by simp only [Int.ofNat_eq_coe]; split_ifs <;> omega)]
    rw [bind_ok, rowEnd_eq]
    have hlen : (if r.len > E.screenCols then E.screenCols else r.len).toNat =
        min r.line.length E.screenCols.toNat := by
      split_ifs <;> omega
    rw [hlen]
    simp only [List.append_assoc]
  · rw [if_neg hf, if_neg hf, abAppend_ok ab [126] 1 (by decide) (by decide), bind_ok]
    rw [Int.tdiv_eq_ediv hsr (by decide)]
    by_cases hw : E.numRows = 0 ∧ (y : Int) = E.screenRows / 3
    · rw [if_pos hw, if_pos hw, printWelcome_eq E _ hsc, bind_ok, rowEnd_eq]
      simp [List.append_assoc]
    · rw [if_neg hw, if_neg hw]
      rw [bind_ok, rowEnd_eq]
      simp [List.append_assoc]

theorem drawRowsLoop_eq (E : editorConfigs) (hb : bufferOK E) (hro : 0 ≤ E.rowOff)
    (hsc : 0 ≤ E.screenCols) (hsr : 0 ≤ E.screenRows) (todo : Nat) :
    ∀ (y : Nat) (ab : List Nat),
      drawRowsLoop E todo (Int.ofNat y) ab =
        Draw.ok (ab ++ ((List.range' y todo).map (rowSegment E)).flatten) := by
  induction todo with
  | zero => intro y ab; simp [drawRowsLoop]
  | succ k ih =>
    intro y ab
    unfold drawRowsLoop
    rw [drawRow_eq E y ab hb hro hsc hsr]
    simp only [Draw.bind]
    have hy : Int.ofNat y + 1 = Int.ofNat (y + 1) := by simp
    rw [hy, ih]
    simp [List.range'_succ, List.append_assoc]

theorem editorDrawRows_eq (E : editorConfigs) (ab : List Nat) (hb : bufferOK E)
    (hro : 0 ≤ E.rowOff) (hsc : 0 ≤ E.screenCols) :
    editorDrawRows E ab = Draw.ok (ab ++ (rowSegments E).flatten) := by
  unfold editorDrawRows rowSegments
  by_cases hsr : 0 ≤ E.screenRows
  · have h := drawRowsLoop_eq E hb hro hsc hsr E.screenRows.toNat 0 ab
    simp only [Int.ofNat_eq_coe, Nat.cast_zero] at h
    rw [h, List.range_eq_range']
  · have h0 : E.screenRows.toNat = 0 := by omega
    rw [h0]
    simp [drawRowsLoop]

theorem decDigits_length (fuel : Nat) :
    ∀ n k : Nat, n < 10 ^ (k + 1) → (decDigits fuel n).length ≤ k + 1 := by
  induction fuel with
  | zero => intro n k _; simp [decDigits]
  | succ f ih =>
    intro n k hn
    unfold decDigits
    split_ifs with h10
    · simp
    · cases k with
      | zero => simp at hn; omega
      | succ k =>
        have hdiv : n / 10 < 10 ^ (k + 1) := by
          apply Nat.div_lt_of_lt_mul
          rw [pow_succ] at hn
          omega
        have := ih (n / 10) k hdiv
        simp only [List.length_append, List.length_singleton]
        omega

theorem decimal_length (n : Int) (h0 : -2147483648 ≤ n) (h1 : n ≤ 2147483647) :
    (decimal n).length ≤ 11 := by
  have hab : n.natAbs < 10 ^ (9 + 1) := by
    have : (10 : Nat) ^ (9 + 1) = 10000000000 := by norm_num
    omega
  have hl := decDigits_length (n.natAbs + 1) n.natAbs 9 hab
  unfold decimal
  split_ifs
  · simp only [List.length_cons]; omega
  · omega

theorem cursorText_eq (E : editorConfigs)
    (hcy : -2147483648 ≤ E.cy + 1 ∧ E.cy + 1 ≤ 2147483647)
    (hcx : -2147483648 ≤ E.cx + 1 ∧ E.cx + 1 ≤ 2147483647) :
    cursorText E = [27, 91] ++ decimal (E.cy + 1) ++ [59] ++ decimal (E.cx + 1) ++ [72] := by
  unfold cursorText
  apply List.take_of_length_le
  have h1 := decimal_length (E.cy + 1) hcy.1 hcy.2
  have h2 := decimal_length (E.cx + 1) hcx.1 hcx.2
  simp only [List.length_append, List.length_cons, List.length_nil]
  omega

theorem editorRefreshScreen_eq (E : editorConfigs) (hb : bufferOK E) (hro : 0 ≤ E.rowOff)
    (hsc : 0 ≤ E.screenCols) :
    editorRefreshScreen E =
      Draw.ok ([27, 91, 72] ++ (rowSegments E).flatten ++ cursorText E) := by
  unfold editorRefreshScreen
  rw [abAppend_ok [] [27, 91, 72] 3 (by decide) (by decide), bind_ok,
    editorDrawRows_eq E _ hb hro hsc, bind_ok,
    abAppend_ok _ (cursorText E) _ (by simp) (Int.le_refl _)]
  simp

theorem digitsValue_append (ds : List Nat) (d : Nat) :
    digitsValue (ds ++ [d]) = 10 * digitsValue ds + (d - 48) := by
  unfold digitsValue
  rw [List.foldl_append]
  rfl

theorem decDigits_value (fuel : Nat) :
    ∀ n : Nat, n < fuel →
      digitsValue (decDigits fuel n) = n ∧ ∀ d ∈ decDigits fuel n, 48 ≤ d ∧ d ≤ 57 := by
  induction fuel with
  | zero => intro n h; omega
  | succ f ih =>
    intro n hn
    unfold decDigits
    split_ifs with h10
    · refine ⟨by simp [digitsValue], ?_⟩
      intro d hd
      simp only [List.mem_singleton] at hd
      omega
    · obtain ⟨hv, hd⟩ := ih (n / 10) (by omega)
      refine ⟨?_, ?_⟩
      · rw [digitsValue_append, hv]
        omega
      · intro d hmem
        rcases List.mem_append.1 hmem with h | h
        · exact hd d h
        · simp only [List.mem_singleton] at h
          omega

theorem rowSegments_get (E : editorConfigs) (y : Nat) (hy : Int.ofNat y < E.screenRows) :
    (rowSegments E).get? y = some (rowSegment E y) := by
  unfold rowSegments
  have hlt : y < E.screenRows.toNat := by
    simp only [Int.ofNat_eq_coe] at hy
    omega
  rw [List.get?_eq_getElem?, List.getElem?_map, List.getElem?_range hlt]
  rfl

theorem startup_bufferOK (ws : winsize) (arg : Option (Option (List Nat))) (E : editorConfigs)
    (h : startup (some ws) arg = Res.ok E) :
    bufferOK E ∧ 0 ≤ E.rowOff ∧ 0 ≤ E.screenCols := by
  unfold startup initEditor getWindowSize at h
  by_cases hc : ws.ws_col = 0
  · simp [hc] at h
  · simp only [hc, if_false] at h
    cases arg with
    | none =>
      simp only [Res.ok.injEq] at h
      subst h
      refine ⟨⟨rfl, by simp⟩, Int.le_refl _, ?_⟩
      simp only [Int.ofNat_eq_coe]
      omega
    | some file =>
      cases file with
      | none => simp [editorOpen] at h
      | some fp =>
        simp only [editorOpen, Res.ok.injEq] at h
        subst h
        rw [editorOpenLoop_eq (fp.length + 1) fp _ (Nat.lt_succ_self _)]
        refine ⟨⟨by simp, ?_⟩, Int.le_refl _, ?_⟩
        · intro r hr
          simp only [List.nil_append, List.mem_map] at hr
          obtain ⟨l, -, rfl⟩ := hr
          rfl
        · simp only [Int.ofNat_eq_coe]
          omega

/-- C13: for every well-formed buffer and viewport (`0 <= rowOff`,
`0 <= screenCols`), `editorDrawRows` appends the segments of the screen rows
`0 .. screenRows-1` in order, and the segment of each screen row `y` with
`rowOff + y < numRows` is the first `min(line length, screenCols)` bytes of line
`rowOff + y`, immediately followed by `ESC [ K` (then the line break, unless the
row is the last).  For the buffer `hello world` with `screenCols = 5` on 3 rows
the whole stream is `ESC [ H`, `hello ESC [ K \r\n`, two placeholder rows and
`ESC [ 1 ; 1 H`. -/
theorem text_rows_rendered (E : editorConfigs) (ab : List Nat) (hb : bufferOK E)
    (hro : 0 ≤ E.rowOff) (hsc : 0 ≤ E.screenCols) :
    editorDrawRows E ab = Draw.ok (ab ++ (rowSegments E).flatten) ∧
    (rowSegments E).length = E.screenRows.toNat ∧
    (∀ y : Nat, Int.ofNat y < E.screenRows → E.rowOff + Int.ofNat y < E.numRows →
      ∃ row, E.rows.get? (E.rowOff + Int.ofNat y).toNat = some row ∧
        (rowSegments E).get? y =
          some (row.line.take (min row.line.length E.screenCols.toNat) ++ [27, 91, 75] ++
            (if Int.ofNat y < E.screenRows - 1 then [13, 10] else []))) ∧
    editorRefreshScreen helloWorldEditor =
      Draw.ok ([27, 91, 72] ++ ([104, 101, 108, 108, 111] ++ [27, 91, 75] ++ [13, 10]) ++
        [126, 27, 91, 75, 13, 10] ++ [126, 27, 91, 75] ++ [27, 91, 49, 59, 49, 72]) := by
  refine ⟨editorDrawRows_eq E ab hb hro hsc, by simp [rowSegments], ?_, by rfl⟩
  intro y hy hlt
  obtain ⟨row, hg, -, -⟩ := rowAt_of_bufferOK E (E.rowOff + Int.ofNat y) hb
    (by simp only [Int.ofNat_eq_coe]; omega) hlt
  refine ⟨row, hg, ?_⟩
  rw [rowSegments_get E y hy]
  unfold rowSegment rowContent
  rw [if_pos hlt, hg]

theorem text_rows_rendered_witness :
    editorDrawRows helloWorldEditor [] = Draw.ok ([] ++ (rowSegments helloWorldEditor).flatten) ∧
    (rowSegments helloWorldEditor).length = helloWorldEditor.screenRows.toNat ∧
    (∀ y : Nat, Int.ofNat y < helloWorldEditor.screenRows →
      helloWorldEditor.rowOff + Int.ofNat y < helloWorldEditor.numRows →
      ∃ row, helloWorldEditor.rows.get? (helloWorldEditor.rowOff + Int.ofNat y).toNat = some row ∧
        (rowSegments helloWorldEditor).get? y =
          some (row.line.take (min row.line.length helloWorldEditor.screenCols.toNat) ++
            [27, 91, 75] ++
            (if Int.ofNat y < helloWorldEditor.screenRows - 1 then [13, 10] else []))) ∧
    editorRefreshScreen helloWorldEditor =
      Draw.ok ([27, 91, 72] ++ ([104, 101, 108, 108, 111] ++ [27, 91, 75] ++ [13, 10]) ++
        [126, 27, 91, 75, 13, 10] ++ [126, 27, 91, 75] ++ [27, 91, 49, 59, 49, 72]) :=
  text_rows_rendered helloWorldEditor [] ⟨by rfl, by decide⟩ (by decide) (by decide)

set_option maxRecDepth 20000 in
/-- C14: the editor started on a 24 by 80 terminal without a file is in the state
`emptyEditor`, and `editorRefreshScreen` builds exactly: `ESC [ H`; rows 0 to 7,
each `~ ESC [ K \r\n`; row 8, which is `~`, 25 spaces, the banner
` Kilo editor -- version 0.0.1`, `ESC [ K \r\n`; rows 9 to 22, each
`~ ESC [ K \r\n`; row 23, `~ ESC [ K`; and last `ESC [ 1 ; 1 H`.  On row 8 the
banner has 26 columns to its left and 25 to its right. -/
theorem empty_buffer_screen :
    startup (some ⟨24, 80⟩) none = Res.ok emptyEditor ∧
    editorRefreshScreen emptyEditor =
      Draw.ok ([27, 91, 72] ++
        (List.replicate 8 [126, 27, 91, 75, 13, 10]).flatten ++
        ([126] ++ List.replicate 25 32 ++ welcome ++ [27, 91, 75, 13, 10]) ++
        (List.replicate 14 [126, 27, 91, 75, 13, 10]).flatten ++
        [126, 27, 91, 75] ++
        [27, 91, 49, 59, 49, 72]) ∧
    welcome = [32, 75, 105, 108, 111, 32, 101, 100, 105, 116, 111, 114, 32, 45, 45, 32,
      118, 101, 114, 115, 105, 111, 110, 32, 48, 46, 48, 46, 49] ∧
    ([126] ++ List.replicate 25 32).length = 26 ∧
    80 - ([126] ++ List.replicate 25 32 ++ welcome).length = 25 := by
  refine ⟨by rfl, by rfl, by rfl, by rfl, by rfl⟩

/-- C15: for every well-formed buffer and viewport (`0 <= rowOff`,
`0 <= screenCols`, `cy + 1` and `cx + 1` values of a 32-bit `int`) the stream
that `editorRefreshScreen` builds is exactly `ESC [ H`, then the segments of the
screen rows `0 .. screenRows-1` in order, then `ESC [ <cy+1> ; <cx+1> H`.  Each
segment is the row's content, `ESC [ K`, and `\r\n` exactly when the row is not
the last.  The numbers are printed in decimal: for a natural number the digits
printed are bytes `0`..`9` whose decimal value is the number. -/
theorem refresh_stream (E : editorConfigs) (hb : bufferOK E) (hro : 0 ≤ E.rowOff)
    (hsc : 0 ≤ E.screenCols)
    (hcy : -2147483648 ≤ E.cy + 1 ∧ E.cy + 1 ≤ 2147483647)
    (hcx : -2147483648 ≤ E.cx + 1 ∧ E.cx + 1 ≤ 2147483647) :
    editorRefreshScreen E =
      Draw.ok ([27, 91, 72] ++ (rowSegments E).flatten ++
        ([27, 91] ++ decimal (E.cy + 1) ++ [59] ++ decimal (E.cx + 1) ++ [72])) ∧
    (rowSegments E).length = E.screenRows.toNat ∧
    (∀ y : Nat, Int.ofNat y < E.screenRows →
      (rowSegments E).get? y =
        some (rowContent E y ++ [27, 91, 75] ++
          (if Int.ofNat y < E.screenRows - 1 then [13, 10] else []))) ∧
    (∀ m : Nat, decimal (Int.ofNat m) = decDigits (m + 1) m ∧
      digitsValue (decDigits (m + 1) m) = m ∧
      ∀ d ∈ decDigits (m + 1) m, 48 ≤ d ∧ d ≤ 57) := by
  refine ⟨?_, by simp [rowSegments], fun y hy => rowSegments_get E y hy, ?_⟩
  · rw [editorRefreshScreen_eq E hb hro hsc, cursorText_eq E hcy hcx]
  · intro m
    refine ⟨?_, decDigits_value (m + 1) m (Nat.lt_succ_self _)⟩
    unfold decimal
    rw [if_neg (by simp only [Int.ofNat_eq_coe]; omega)]
    rfl

theorem refresh_stream_witness :
    editorRefreshScreen { helloWorldEditor with cy := 11, cx := 2 } =
      Draw.ok ([27, 91, 72] ++ (rowSegments { helloWorldEditor with cy := 11, cx := 2 }).flatten ++
        ([27, 91] ++ [49, 50] ++ [59] ++ [51] ++ [72])) :=
  (refresh_stream { helloWorldEditor with cy := 11, cx := 2 } ⟨by rfl, by decide⟩ (by decide)
    (by decide) (by decide) (by decide)).1

/-- Apart from the banner row on a terminal with fewer than 30 columns: with
`screenCols >= 1`, the content of a screen row holds at most `screenCols` bytes. -/
theorem rowContent_length (E : editorConfigs) (y : Nat) (hsc : 1 ≤ E.screenCols)
    (hw : ¬ (E.numRows = 0 ∧ Int.ofNat y = E.screenRows / 3 ∧ E.screenCols < 30)) :
    Int.ofNat (rowContent E y).length ≤ E.screenCols := by
  unfold rowContent
  simp only [Int.ofNat_eq_coe] at hw ⊢
  split_ifs with h1 h2
  · split
    · simp only [List.length_take]
      omega
    · simp only [List.length_nil, Nat.cast_zero]
      omega
  · have h30 : ¬ E.screenCols < 30 := fun h => hw ⟨h2.1, h2.2, h⟩
    unfold bannerText
    rw [if_neg (by omega)]
    simp only [List.length_append, List.length_singleton, List.length_replicate, welcome_length]
    omega
  · simp only [List.length_singleton, Nat.cast_one]
    omega

set_option maxRecDepth 20000 in
/-- C20, evaluated on the code: the editor started without a file on a terminal
with 24 rows and 20 columns is in the state `narrowEditor` (`screenCols = 20`);
the segment of screen row 8 is `~`, the first 20 bytes of the banner, `ESC [ K`
and the line break: 21 bytes stand before the erase sequence. -/
theorem banner_row_too_wide :
    startup (some ⟨24, 20⟩) none = Res.ok narrowEditor ∧
    1 ≤ narrowEditor.screenCols ∧
    editorDrawRows narrowEditor [] = Draw.ok (rowSegments narrowEditor).flatten ∧
    (rowSegments narrowEditor).get? 8 =
      some (([126] ++ welcome.take 20) ++ [27, 91, 75] ++ [13, 10]) ∧
    ([126] ++ welcome.take 20).length = 21 ∧
    drawRow narrowEditor 8 [] = Draw.ok (([126] ++ welcome.take 20) ++ [27, 91, 75] ++ [13, 10]) := by
  refine ⟨by rfl, by decide, by rfl, by rfl, by rfl, by rfl⟩

end Kilo



